import Mathlib

/-!
# Validation scripts of 5g-health-platform-contracts

A shallow embedding of `scripts/validate-asyncapi.js` and
`scripts/validate-schemas.js`.

* The file system is a finite tree (`Listing`), reached through a lookup by
  absolute path (`fsAt`); relative paths are resolved against the working
  directory as Node's `fs` does. An entry is a file, a directory, or one on
  which `statSync` throws.
* `path.join` / `path.resolve` are modelled after Node's POSIX implementation.
* The external collaborators (`execSync` of the AsyncAPI command line,
  `fs.readFileSync`, `JSON.parse`, and the Ajv methods) are oracles carried by
  the environment.
* `console.log` / `console.error` append to a log; `process.exit(n)` ends the
  run with exit code `n`; an uncaught exception ends it with exit code 1.
-/

set_option autoImplicit false

namespace Contracts

/-! ## Paths (Node's POSIX `path` module) -/

/-- Split a path at every slash; empty segments are kept. -/
def splitSlash : List Char → List (List Char)
  | [] => [[]]
  | c :: cs =>
    if c = '/' then [] :: splitSlash cs
    else
      match splitSlash cs with
      | [] => [[c]]
      | seg :: segs => (c :: seg) :: segs

/-- The segment-resolution loop of Node's `normalizeString`: `res` is the stack of
kept segments, innermost first. Empty and `.` segments are dropped, `..` removes
the last kept segment, or is kept itself when nothing can be removed and the
path is relative. -/
def normalizeSegs (allowAboveRoot : Bool) : List (List Char) → List (List Char) → List (List Char)
  | [], res => res.reverse
  | seg :: segs, res =>
    if seg = [] ∨ seg = ['.'] then normalizeSegs allowAboveRoot segs res
    else if seg = ['.', '.'] then
      match res with
      | [] =>
        if allowAboveRoot then normalizeSegs allowAboveRoot segs [seg]
        else normalizeSegs allowAboveRoot segs []
      | top :: below =>
        if top = ['.', '.'] then
          (if allowAboveRoot then normalizeSegs allowAboveRoot segs (seg :: res)
           else normalizeSegs allowAboveRoot segs res)
        else normalizeSegs allowAboveRoot segs below
    else normalizeSegs allowAboveRoot segs (seg :: res)

/-- Segments joined with a slash. -/
def joinSlash : List (List Char) → List Char
  | [] => []
  | [seg] => seg
  | seg :: segs => seg ++ '/' :: joinSlash segs

/-- The helper `normalizeString(path, allowAboveRoot)` of Node. -/
def normalizeString (p : List Char) (allowAboveRoot : Bool) : List Char :=
  joinSlash (normalizeSegs allowAboveRoot (splitSlash p) [])

/-- Whether a path starts with a slash. -/
def isAbsolute (p : List Char) : Bool :=
  match p with
  | c :: _ => c = '/'
  | [] => false

/-- Node's `path.posix.normalize`. -/
def pathNormalize (path : String) : String :=
  let p := path.data
  if p = [] then "."
  else
    let trailingSeparator : Bool := p.getLast? = some '/'
    let body := normalizeString p (!isAbsolute p)
    if body = [] then
      (if isAbsolute p then "/" else if trailingSeparator then "./" else ".")
    else
      let body := if trailingSeparator then body ++ ['/'] else body
      String.mk (if isAbsolute p then '/' :: body else body)

/-- Node's `path.join(a, b)`: the non-empty arguments joined by a slash, then
normalized. -/
def pathJoin (a b : String) : String :=
  if a = "" then (if b = "" then "." else pathNormalize b)
  else if b = "" then pathNormalize a
  else pathNormalize (a ++ "/" ++ b)

/-- Node's `path.resolve(p)` in a process whose working directory is the
absolute path `cwd`. -/
def pathResolve (cwd p : String) : String :=
  let full : List Char :=
    if p = "" then cwd.data
    else if isAbsolute p.data then p.data
    else cwd.data ++ '/' :: p.data
  String.mk ('/' :: normalizeString full false)

/-- JavaScript `s.endsWith(suffix)`. -/
def endsWith (s suffix : String) : Bool :=
  suffix.data.isSuffixOf s.data

/-! ## File system -/

/-- The entries of a directory in `readdir` order: each entry is a non-directory
(`file`), a directory with its own entries (`dir`), or an entry on which
`statSync` throws, such as a symbolic link whose target is gone (`dangling`);
the `Dirent` of a dangling entry is not a directory. `rest` is the remainder of
the listing. -/
inductive Listing where
  | nil : Listing
  | file (name : String) (rest : Listing) : Listing
  | dir (name : String) (children : Listing) (rest : Listing) : Listing
  | dangling (name : String) (rest : Listing) : Listing
  deriving DecidableEq

/-- What a path names: nothing, something that exists and is not a directory
(`readdirSync` throws on it), or a directory. -/
inductive PathState where
  | missing : PathState
  | notDir : PathState
  | dir (entries : Listing) : PathState
  deriving DecidableEq

/-- A line written by `console.log` (`out`) or `console.error` (`err`). -/
inductive Line where
  | out (text : String) : Line
  | err (text : String) : Line
  deriving DecidableEq

/-- Whether a line went to standard error. -/
def Line.isErr : Line → Bool
  | .err _ => true
  | .out _ => false

/-- Stands for the stack trace Node prints for an exception nobody caught. -/
def uncaught (what : String) : Line := .err ("Uncaught " ++ what)

/-! ## validate-asyncapi.js -/

/-- The body of `findYamlFiles(dir, fileList)` after `readdirSync` returned
`entries`: the `forEach` over the entries, with the mutated `fileList` passed
along. `none` is an exception, which nothing catches: `fs.statSync(filePath)`
throws on a dangling entry, and an exception of a recursive call passes through.
A directory entry exists, so the recursive call goes past its `existsSync`
guard. -/
def findYamlFilesIn (dir : String) : Listing → List String → Option (List String)
  | .nil, fileList => some fileList
  | .file file rest, fileList =>
    let filePath := pathJoin dir file
    if endsWith file ".yaml" || endsWith file ".yml" then
      findYamlFilesIn dir rest (fileList ++ [filePath])
    else findYamlFilesIn dir rest fileList
  | .dir file children rest, fileList =>
    let filePath := pathJoin dir file
    match findYamlFilesIn filePath children fileList with
    | none => none
    | some fileList => findYamlFilesIn dir rest fileList
  | .dangling _ _, _ => none

/-- The function `findYamlFiles(dir, fileList)`, given what `dir` names.
`none` is an exception: `readdirSync` throws on a path that exists and is not a
directory, and `statSync` throws on a dangling entry. -/
def findYamlFiles (dir : String) (state : PathState) (fileList : List String) :
    Option (List String) :=
  match state with
  | .missing => some fileList
  | .notDir => none
  | .dir entries => findYamlFilesIn dir entries fileList

/-- What validate-asyncapi.js runs in. -/
structure AsyncapiEnv where
  /-- The working directory of the process, an absolute path. -/
  cwd : String
  /-- The directory holding the script file (`__dirname`); the script never
  reads it. -/
  dirname : String
  /-- The file system, by absolute path. -/
  fsAt : String → PathState
  /-- The oracle `execSync(command)`: `true` when the command exits with 0,
  `false` when `execSync` throws. -/
  execSync : String → Bool

/-- What a run of validate-asyncapi.js did. -/
structure AsyncapiOutcome where
  log : List Line
  /-- The commands given to `execSync`, in order. -/
  calls : List String
  exitCode : Nat
  deriving DecidableEq

/-- The constant `asyncapiDir`. -/
def asyncapiDir : String := "asyncapi"

/-- The double quote character. -/
def dquote : String := String.singleton (Char.ofNat 34)

/-- The command line built for one file. -/
def validateCommand (cwd file : String) : String :=
  let absolutePath := pathResolve cwd file
  "asyncapi validate " ++ dquote ++ absolutePath ++ dquote

/-- The mutable state of the main loop. -/
structure AsyncapiState where
  log : List Line
  calls : List String
  hasErrors : Bool
  deriving DecidableEq

/-- One turn of `files.forEach`: the `try` block and its `catch`. -/
def validateOne (env : AsyncapiEnv) (st : AsyncapiState) (file : String) : AsyncapiState :=
  let log := st.log ++ [Line.out ("Validating " ++ file ++ "...")]
  let command := validateCommand env.cwd file
  let calls := st.calls ++ [command]
  if env.execSync command then
    { log := log, calls := calls, hasErrors := st.hasErrors }
  else
    { log := log ++ [Line.err ("Error validating " ++ file)], calls := calls, hasErrors := true }

/-- The script from line 31 on, given the list `files`. -/
def validateFiles (env : AsyncapiEnv) (files : List String) : AsyncapiOutcome :=
  if files.length = 0 then
    { log := [Line.out "No AsyncAPI files found"], calls := [], exitCode := 0 }
  else
    let st := files.foldl (validateOne env) { log := [], calls := [], hasErrors := false }
    if st.hasErrors then { log := st.log, calls := st.calls, exitCode := 1 }
    else { log := st.log, calls := st.calls, exitCode := 0 }

/-- The directory validate-asyncapi.js scans: the relative `asyncapiDir`, which
`fs` resolves against the working directory. -/
def asyncapiScanRoot (cwd : String) : String := pathResolve cwd asyncapiDir

/-- The whole script validate-asyncapi.js. -/
def validateAsyncapi (env : AsyncapiEnv) : AsyncapiOutcome :=
  match findYamlFiles asyncapiDir (env.fsAt (asyncapiScanRoot env.cwd)) [] with
  | none => { log := [uncaught "readdirSync or statSync"], calls := [], exitCode := 1 }
  | some files => validateFiles env files

/-! ## validate-schemas.js -/

/-- The segments of `path.relative`: the common leading segments are dropped,
each segment left of the source becomes `..`, and what is left of the
destination follows. -/
def stripCommon : List (List Char) → List (List Char) → List (List Char)
  | a :: as, b :: bs =>
    if a = b then stripCommon as bs else (a :: as).map (fun _ => ['.', '.']) ++ b :: bs
  | as, bs => as.map (fun _ => ['.', '.']) ++ bs

/-- Node's `path.relative(from, to)` for absolute paths: climb out of what is
left of `from` after the common leading segments, then descend into what is left
of `to`. -/
def pathRelative (src dst : String) : String :=
  String.mk (joinSlash (stripCommon (normalizeSegs false (splitSlash src.data) [])
    (normalizeSegs false (splitSlash dst.data) [])))

/-- The constant `schemasDir`, for a script file that lives in directory
`dirname` (the value of `__dirname`). -/
def schemasDir (dirname : String) : String := pathJoin dirname "../schemas"

/-- The loop of `getAllSchemaFiles(dir, fileList)` over the entries
`readdirSync` returned. It asks the `Dirent` and never calls `stat`, so a
dangling entry goes the way of a file. -/
def getAllSchemaFilesIn (dir : String) : Listing → List String → List String
  | .nil, fileList => fileList
  | .file name rest, fileList =>
    let fullPath := pathJoin dir name
    if endsWith name ".json" then getAllSchemaFilesIn dir rest (fileList ++ [fullPath])
    else getAllSchemaFilesIn dir rest fileList
  | .dangling name rest, fileList =>
    let fullPath := pathJoin dir name
    if endsWith name ".json" then getAllSchemaFilesIn dir rest (fileList ++ [fullPath])
    else getAllSchemaFilesIn dir rest fileList
  | .dir name children rest, fileList =>
    let fullPath := pathJoin dir name
    getAllSchemaFilesIn dir rest (getAllSchemaFilesIn fullPath children fileList)

/-- The function `getAllSchemaFiles(dir, fileList)`, given what `dir` names.
There is no existence guard: `readdirSync` throws (`none`) unless `dir` is a
directory. -/
def getAllSchemaFiles (dir : String) (state : PathState) (fileList : List String) :
    Option (List String) :=
  match state with
  | .dir entries => some (getAllSchemaFilesIn dir entries fileList)
  | .missing => none
  | .notDir => none

/-- What validate-schemas.js runs in. An oracle of type `Except String _` throws
the message on `error`. -/
structure SchemasEnv (Schema : Type) where
  /-- The working directory of the process. -/
  cwd : String
  /-- The directory holding the script file (`__dirname`). -/
  dirname : String
  /-- The file system, by absolute path. -/
  fsAt : String → PathState
  /-- The oracle `fs.readFileSync(filePath, 'utf8')`. -/
  readFileSync : String → Except String String
  /-- The oracle `JSON.parse(schemaContent)`. -/
  jsonParse : String → Except String Schema
  /-- Evaluating `schema.$id`: a `TypeError` when the parsed value is `null`,
  otherwise whether the property is truthy. -/
  getId : Schema → Except String Bool
  /-- The oracle `ajv.addSchema(schema)`. -/
  addSchema : Schema → Except String Unit
  /-- The oracle `ajv.validateSchema(schema)`, which returns a boolean. -/
  validateSchema : Schema → Bool
  /-- How `ajv.errors` prints after `validateSchema` returned false. -/
  ajvErrors : Schema → String
  /-- The oracle `ajv.compile(schema)`. -/
  compile : Schema → Except String Unit

/-- A call of an oracle, tagged with the file it is made for. -/
inductive SchemaOp where
  | readFile (filePath : String) : SchemaOp
  | jsonParse (filePath : String) : SchemaOp
  | addSchema (filePath : String) : SchemaOp
  | validateSchema (filePath : String) : SchemaOp
  | compile (filePath : String) : SchemaOp
  deriving DecidableEq

/-- What a run of validate-schemas.js has written and called so far. -/
structure Progress where
  log : List Line
  trace : List SchemaOp
  deriving DecidableEq

/-- What a run of validate-schemas.js did. -/
structure SchemasOutcome where
  log : List Line
  trace : List SchemaOp
  exitCode : Nat
  deriving DecidableEq

/-- The newline character. -/
def nl : String := String.singleton (Char.ofNat 10)

/-- The two lines of a `catch` block. -/
def failureLines (rel what message : String) : List Line :=
  [Line.err ("✗ " ++ rel ++ " - " ++ what), Line.err ("  Error: " ++ message)]

/-- Step 1, the loop over `schemaFiles`. `error` is a run ended by
`process.exit(1)`; `ok` carries the array `schemas`. -/
def loadSchemas {Schema : Type} (env : SchemasEnv Schema) (root : String) :
    List String → List (String × Schema) → Progress →
    Except Progress (List (String × Schema) × Progress)
  | [], schemas, p => .ok (schemas, p)
  | filePath :: rest, schemas, p =>
    let rel := pathRelative root filePath
    let trace := p.trace ++ [SchemaOp.readFile filePath]
    match env.readFileSync filePath with
    | .error message =>
      .error { log := p.log ++ failureLines rel "Failed to load" message, trace := trace }
    | .ok schemaContent =>
      let trace := trace ++ [SchemaOp.jsonParse filePath]
      match env.jsonParse schemaContent with
      | .error message =>
        .error { log := p.log ++ failureLines rel "Failed to load" message, trace := trace }
      | .ok schema =>
        match env.getId schema with
        | .error message =>
          .error { log := p.log ++ failureLines rel "Failed to load" message, trace := trace }
        | .ok false =>
          .error { log := p.log ++ [Line.err ("✗ " ++ rel ++ " - Missing required $id field")],
                   trace := trace }
        | .ok true =>
          loadSchemas env root rest (schemas ++ [(filePath, schema)])
            { log := p.log ++ [Line.out ("  Loaded: " ++ rel)], trace := trace }

/-- Step 2, the loop over `schemas` that registers each with Ajv. `error` is a
run ended by `process.exit(1)`. -/
def addSchemas {Schema : Type} (env : SchemasEnv Schema) (root : String) :
    List (String × Schema) → Progress → Except Progress Progress
  | [], p => .ok p
  | (filePath, schema) :: rest, p =>
    let rel := pathRelative root filePath
    let trace := p.trace ++ [SchemaOp.addSchema filePath]
    match env.addSchema schema with
    | .ok _ =>
      addSchemas env root rest { log := p.log ++ [Line.out ("  Added: " ++ rel)], trace := trace }
    | .error message =>
      .error { log := p.log ++ failureLines rel "Failed to add to AJV" message, trace := trace }

/-- The mutable state of step 3. -/
structure CheckState where
  log : List Line
  trace : List SchemaOp
  hasErrors : Bool
  deriving DecidableEq

/-- One turn of the loop of step 3. -/
def checkOne {Schema : Type} (env : SchemasEnv Schema) (root : String) (st : CheckState)
    (entry : String × Schema) : CheckState :=
  let filePath := entry.1
  let schema := entry.2
  let rel := pathRelative root filePath
  let trace := st.trace ++ [SchemaOp.validateSchema filePath]
  let isValid := env.validateSchema schema
  if !isValid then
    { log := st.log ++ [Line.err ("✗ " ++ rel ++ " - Schema validation failed"),
                        Line.err ("  Errors: " ++ env.ajvErrors schema)],
      trace := trace, hasErrors := true }
  else
    let trace := trace ++ [SchemaOp.compile filePath]
    match env.compile schema with
    | .ok _ =>
      { log := st.log ++ [Line.out ("✓ " ++ rel ++ " - Valid")], trace := trace,
        hasErrors := st.hasErrors }
    | .error message =>
      { log := st.log ++ failureLines rel "Compilation failed" message, trace := trace,
        hasErrors := true }

/-- The script from line 31 on, given `schemaFiles`. -/
def validateSchemaFiles {Schema : Type} (env : SchemasEnv Schema) (root : String)
    (schemaFiles : List String) (start : Progress) : SchemasOutcome :=
  match loadSchemas env root schemaFiles []
      { log := start.log ++ [Line.out "Loading schemas..."], trace := start.trace } with
  | .error p => { log := p.log, trace := p.trace, exitCode := 1 }
  | .ok (schemas, p) =>
    match addSchemas env root schemas
        { log := p.log ++ [Line.out (nl ++ "Adding schemas to AJV...")], trace := p.trace } with
    | .error p => { log := p.log, trace := p.trace, exitCode := 1 }
    | .ok p =>
      let st := schemas.foldl (checkOne env root)
        { log := p.log ++ [Line.out (nl ++ "Validating schemas...")], trace := p.trace,
          hasErrors := false }
      if st.hasErrors then
        { log := st.log ++ [Line.err (nl ++ "✗ Some JSON schemas are invalid. " ++
            "Please fix the errors above." ++ nl)],
          trace := st.trace, exitCode := 1 }
      else
        { log := st.log ++ [Line.out (nl ++ "✓ All JSON schemas are valid!" ++ nl)],
          trace := st.trace, exitCode := 0 }

/-- The whole script validate-schemas.js. -/
def validateSchemas {Schema : Type} (env : SchemasEnv Schema) : SchemasOutcome :=
  let root := schemasDir env.dirname
  let start : Progress := { log := [Line.out ("Validating JSON schemas..." ++ nl)], trace := [] }
  match getAllSchemaFiles root (env.fsAt root) [] with
  | none => { log := start.log ++ [uncaught "readdirSync"], trace := [], exitCode := 1 }
  | some schemaFiles => validateSchemaFiles env root schemaFiles start

/-! ## Notions the statements use -/

/-- The non-directory entries under a directory, at any depth, as pairs of entry
name and path, depth first in `readdir` order; a dangling entry is one of them.
The path of an entry is `path.join` of the directory holding it and its name. -/
def fileEntries (dir : String) : Listing → List (String × String)
  | .nil => []
  | .file name rest => (name, pathJoin dir name) :: fileEntries dir rest
  | .dir name children rest => fileEntries (pathJoin dir name) children ++ fileEntries dir rest
  | .dangling name rest => (name, pathJoin dir name) :: fileEntries dir rest

/-- Whether `statSync` succeeds on every entry, at every depth. -/
def statable : Listing → Bool
  | .nil => true
  | .file _ rest => statable rest
  | .dir _ children rest => statable children && statable rest
  | .dangling _ _ => false

/-- A name ending with `.yaml` or `.yml`. -/
def isYamlName (name : String) : Bool := endsWith name ".yaml" || endsWith name ".yml"

/-- The paths of the non-directory entries under `dir` whose name ends with
`.yaml` or `.yml`. -/
def yamlPaths (dir : String) (entries : Listing) : List String :=
  ((fileEntries dir entries).filter (fun e => isYamlName e.1)).map (fun e => e.2)

/-- The paths of the non-directory entries under `dir` whose name ends with
`.json`. -/
def jsonPaths (dir : String) (entries : Listing) : List String :=
  ((fileEntries dir entries).filter (fun e => endsWith e.1 ".json")).map (fun e => e.2)

/-- The external validator fails on `file`: `execSync` throws for its command. -/
def validatorFails (env : AsyncapiEnv) (file : String) : Bool :=
  !env.execSync (validateCommand env.cwd file)

/-- A path segment that names an entry: not empty, not `.` or `..`, and without
a slash. -/
def cleanSeg (s : List Char) : Bool :=
  decide (s ≠ [] ∧ s ≠ ['.'] ∧ s ≠ ['.', '.'] ∧ '/' ∉ s)

/-- A relative, normalized path that does not climb: every segment names an
entry. -/
def cleanDir (dir : String) : Bool := (splitSlash dir.data).all cleanSeg

/-- The names of the entries of a directory itself. -/
def topNames : Listing → List String
  | .nil => []
  | .file name rest => name :: topNames rest
  | .dir name _ rest => name :: topNames rest
  | .dangling name rest => name :: topNames rest

/-- What every directory listing satisfies: each name is a single segment
other than `.` and `..`, and no two entries of one directory share a name. -/
def wellFormed : Listing → Bool
  | .nil => true
  | .file name rest => cleanSeg name.data && decide (name ∉ topNames rest) && wellFormed rest
  | .dir name children rest =>
    cleanSeg name.data && decide (name ∉ topNames rest) && wellFormed children && wellFormed rest
  | .dangling name rest => cleanSeg name.data && decide (name ∉ topNames rest) && wellFormed rest

/-! ## validate-schemas.js: notions the statements use -/

/-- The schema a file yields in step 1 when it is read, parsed and found to have
a truthy `$id`; `none` when one of the three fails. -/
def loadOf {Schema : Type} (env : SchemasEnv Schema) (filePath : String) : Option Schema :=
  match env.readFileSync filePath with
  | .error _ => none
  | .ok schemaContent =>
    match env.jsonParse schemaContent with
    | .error _ => none
    | .ok schema =>
      match env.getId schema with
      | .ok true => some schema
      | .ok false => none
      | .error _ => none

/-- The files that load, each with its schema. -/
def loadedPairs {Schema : Type} (env : SchemasEnv Schema) : List String → List (String × Schema)
  | [] => []
  | f :: fs =>
    match loadOf env f with
    | some schema => (f, schema) :: loadedPairs env fs
    | none => loadedPairs env fs

/-- Whether `ajv.addSchema` returns normally. -/
def addOk {Schema : Type} (env : SchemasEnv Schema) (schema : Schema) : Bool :=
  match env.addSchema schema with
  | .ok _ => true
  | .error _ => false

/-- Whether `ajv.compile` returns normally. -/
def compileOk {Schema : Type} (env : SchemasEnv Schema) (schema : Schema) : Bool :=
  match env.compile schema with
  | .ok _ => true
  | .error _ => false

/-- A schema fails step 3: `validateSchema` returns false or `compile` throws. -/
def checkFails {Schema : Type} (env : SchemasEnv Schema) (schema : Schema) : Bool :=
  !env.validateSchema schema || !compileOk env schema

/-- A file fails: reading or parsing it fails, or the parsed schema has no truthy
`$id`, or `ajv.addSchema` throws, or `ajv.validateSchema` returns false, or
`ajv.compile` throws. -/
def fileFails {Schema : Type} (env : SchemasEnv Schema) (filePath : String) : Bool :=
  match env.readFileSync filePath with
  | .error _ => true
  | .ok schemaContent =>
    match env.jsonParse schemaContent with
    | .error _ => true
    | .ok schema =>
      (match env.getId schema with
        | .ok true => false
        | .ok false => true
        | .error _ => true)
      || !addOk env schema || !env.validateSchema schema || !compileOk env schema

/-- The oracle calls step 1 makes when every file loads. -/
def loadOps : List String → List SchemaOp
  | [] => []
  | f :: fs => SchemaOp.readFile f :: SchemaOp.jsonParse f :: loadOps fs

/-- The oracle calls step 3 makes. -/
def checkOps {Schema : Type} (env : SchemasEnv Schema) : List (String × Schema) → List SchemaOp
  | [] => []
  | (f, schema) :: rest =>
    if env.validateSchema schema then
      SchemaOp.validateSchema f :: SchemaOp.compile f :: checkOps env rest
    else SchemaOp.validateSchema f :: checkOps env rest

/-- What step 3 writes for one schema. -/
def checkLines {Schema : Type} (env : SchemasEnv Schema) (root : String)
    (entry : String × Schema) : List Line :=
  let rel := pathRelative root entry.1
  if env.validateSchema entry.2 then
    match env.compile entry.2 with
    | .ok _ => [Line.out ("✓ " ++ rel ++ " - Valid")]
    | .error message => failureLines rel "Compilation failed" message
  else
    [Line.err ("✗ " ++ rel ++ " - Schema validation failed"),
     Line.err ("  Errors: " ++ env.ajvErrors entry.2)]

/-- A call of `ajv.validateSchema` or `ajv.compile`. -/
def SchemaOp.isCheck : SchemaOp → Bool
  | .validateSchema _ => true
  | .compile _ => true
  | _ => false

/-- A call of `ajv.validateSchema`. -/
def SchemaOp.isValidate : SchemaOp → Bool
  | .validateSchema _ => true
  | _ => false

/-- The last line validate-schemas.js writes when it reaches the end. -/
def verdictLine (hasErrors : Bool) : Line :=
  if hasErrors then
    Line.err (nl ++ "✗ Some JSON schemas are invalid. " ++ "Please fix the errors above." ++ nl)
  else Line.out (nl ++ "✓ All JSON schemas are valid!" ++ nl)

/-- Where validate-schemas.js starts: the banner is written, nothing is called. -/
def startProgress : Progress :=
  { log := [Line.out ("Validating JSON schemas..." ++ nl)], trace := [] }

/-! ## Sample runs -/

/-- A sample run of validate-asyncapi.js: the working directory `/work` holds
`asyncapi/good.yaml`, `asyncapi/sub/bad.yml` and `asyncapi/sub/notes.txt`, and the
validator accepts `good.yaml` only. -/
def sampleAsyncapiEnv : AsyncapiEnv where
  cwd := "/work"
  dirname := "/repo/scripts"
  fsAt := fun p =>
    if p = "/work/asyncapi" then
      .dir (.file "good.yaml" (.dir "sub" (.file "bad.yml" (.file "notes.txt" .nil)) .nil))
    else .missing
  execSync := fun command => decide (command = validateCommand "/work" "asyncapi/good.yaml")

/-- A sample run of validate-asyncapi.js in which `asyncapi` holds no YAML file,
only `README.md` and a directory that is named `old.yaml`. -/
def sampleEmptyAsyncapiEnv : AsyncapiEnv where
  cwd := "/work"
  dirname := "/repo/scripts"
  fsAt := fun p =>
    if p = "/work/asyncapi" then .dir (.file "README.md" (.dir "old.yaml" .nil .nil))
    else .missing
  execSync := fun _ => false

/-- A sample run of validate-asyncapi.js in which `asyncapi` is a regular
file. -/
def sampleFileAtAsyncapiEnv : AsyncapiEnv where
  cwd := "/work"
  dirname := "/repo/scripts"
  fsAt := fun p => if p = "/work/asyncapi" then .notDir else .missing
  execSync := fun _ => true

/-- A sample run of validate-asyncapi.js in which `asyncapi` holds `README.md`
and `latest`, a symbolic link whose target is gone. -/
def sampleDanglingAsyncapiEnv : AsyncapiEnv where
  cwd := "/work"
  dirname := "/repo/scripts"
  fsAt := fun p =>
    if p = "/work/asyncapi" then .dir (.file "README.md" (.dangling "latest" .nil))
    else .missing
  execSync := fun _ => true

/-- A sample directory: `a.yaml`, then `dangling.yaml`, a symbolic link whose
target is gone. -/
def sampleDanglingListing : Listing :=
  .file "a.yaml" (.dangling "dangling.yaml" .nil)

/-- A sample directory: `good.yaml`, then the directory `sub` holding `bad.yml`
and `notes.txt`. -/
def sampleListing : Listing :=
  .file "good.yaml" (.dir "sub" (.file "bad.yml" (.file "notes.txt" .nil)) .nil)

/-- A sample run of validate-schemas.js. The script lives in `/repo/scripts`,
the process runs in `/work`. `/repo/schemas` holds `a.json`, `sub/b.json` and
`notes.txt`; `/work/schemas` holds an unreadable `bad.json`. A file parses to
its own path; Ajv accepts every schema in `addSchema` and `compile`, and
`validateSchema` rejects `a.json` only. -/
def sampleSchemasEnv : SchemasEnv String where
  cwd := "/work"
  dirname := "/repo/scripts"
  fsAt := fun p =>
    if p = "/repo/schemas" then
      .dir (.file "a.json" (.dir "sub" (.file "b.json" .nil) (.file "notes.txt" .nil)))
    else if p = "/work/schemas" then .dir (.file "bad.json" .nil)
    else .missing
  readFileSync := fun p => if p = "/work/schemas/bad.json" then .error "EACCES" else .ok p
  jsonParse := fun content => .ok content
  getId := fun _ => .ok true
  addSchema := fun _ => .ok ()
  validateSchema := fun schema => decide (schema ≠ "/repo/schemas/a.json")
  ajvErrors := fun _ => "[]"
  compile := fun _ => .ok ()

/-- The sample run again, with a `JSON.parse` that throws on every file. -/
def sampleBrokenSchemasEnv : SchemasEnv String :=
  { sampleSchemasEnv with jsonParse := fun _ => .error "Unexpected token" }

/-- The sample run again, with no `schemas` directory anywhere. -/
def sampleMissingSchemasEnv : SchemasEnv String :=
  { sampleSchemasEnv with fsAt := fun _ => .missing }

/-- The sample run again, with a `schemas` directory that holds `README.md`
only. -/
def sampleNoJsonSchemasEnv : SchemasEnv String :=
  { sampleSchemasEnv with
    fsAt := fun p => if p = "/repo/schemas" then .dir (.file "README.md" .nil) else .missing }

/-- What validate-schemas.js writes when the loops of its three steps have
nothing to do. -/
def emptyRunLog : List Line :=
  [Line.out ("Validating JSON schemas..." ++ nl),
   Line.out "Loading schemas...",
   Line.out (nl ++ "Adding schemas to AJV..."),
   Line.out (nl ++ "Validating schemas..."),
   Line.out (nl ++ "✓ All JSON schemas are valid!" ++ nl)]

/-! ## Lemmas: directory traversal -/

theorem findYamlFilesIn_eq (entries : Listing) :
    ∀ (dir : String) (fileList : List String), statable entries = true →
      findYamlFilesIn dir entries fileList = some (fileList ++ yamlPaths dir entries) := by
  induction entries with
  | nil => intro dir fileList _; simp [findYamlFilesIn, yamlPaths, fileEntries]
  | file name rest ih =>
    intro dir fileList hs
    have hr : statable rest = true := hs
    by_cases h : isYamlName name = true
    · have h2 : (endsWith name ".yaml" || endsWith name ".yml") = true := h
      simp only [findYamlFilesIn, h2, if_true, ih _ _ hr]
      simp [yamlPaths, fileEntries, h]
    · have h2 : ¬ (endsWith name ".yaml" || endsWith name ".yml") = true := h
      simp only [findYamlFilesIn, h2, if_false, ih _ _ hr]
      simp [yamlPaths, fileEntries, h]
  | dir name children rest ihc ihr =>
    intro dir fileList hs
    simp only [statable, Bool.and_eq_true] at hs
    simp only [findYamlFilesIn, ihc _ _ hs.1, ihr _ _ hs.2]
    simp [yamlPaths, fileEntries]
  | dangling name rest _ =>
    intro dir fileList hs
    simp [statable] at hs

theorem findYamlFilesIn_dangling (entries : Listing) :
    ∀ (dir : String) (fileList : List String), statable entries = false →
      findYamlFilesIn dir entries fileList = none := by
  induction entries with
  | nil => intro dir fileList hs; simp [statable] at hs
  | file name rest ih =>
    intro dir fileList hs
    have hr : statable rest = false := hs
    simp only [findYamlFilesIn]
    split <;> exact ih _ _ hr
  | dir name children rest ihc ihr =>
    intro dir fileList hs
    simp only [statable, Bool.and_eq_false_iff] at hs
    simp only [findYamlFilesIn]
    cases hc : statable children with
    | false => rw [ihc _ _ hc]
    | true =>
      rw [findYamlFilesIn_eq children _ _ hc]
      rcases hs with h | h
      · rw [hc] at h; cases h
      · exact ihr _ _ h
  | dangling name rest _ => intro dir fileList _; rfl

theorem getAllSchemaFilesIn_eq (entries : Listing) :
    ∀ (dir : String) (fileList : List String),
      getAllSchemaFilesIn dir entries fileList = fileList ++ jsonPaths dir entries := by
  induction entries with
  | nil => intro dir fileList; simp [getAllSchemaFilesIn, jsonPaths, fileEntries]
  | file name rest ih =>
    intro dir fileList
    by_cases h : endsWith name ".json" = true
    · simp only [getAllSchemaFilesIn, h, if_true, ih]
      simp [jsonPaths, fileEntries, h]
    · simp only [getAllSchemaFilesIn, h, if_false, ih]
      simp [jsonPaths, fileEntries, h]
  | dir name children rest ihc ihr =>
    intro dir fileList
    simp only [getAllSchemaFilesIn, ihc, ihr]
    simp [jsonPaths, fileEntries]
  | dangling name rest ih =>
    intro dir fileList
    by_cases h : endsWith name ".json" = true
    · simp only [getAllSchemaFilesIn, h, if_true, ih]
      simp [jsonPaths, fileEntries, h]
    · simp only [getAllSchemaFilesIn, h, if_false, ih]
      simp [jsonPaths, fileEntries, h]

/-! ## Lemmas: the paths of distinct entries are distinct -/

theorem splitSlash_ne_nil (p : List Char) : splitSlash p ≠ [] := by
  cases p with
  | nil => simp [splitSlash]
  | cons c cs =>
    unfold splitSlash
    split
    · simp
    · split <;> simp

theorem joinSlash_cons_cons (c : Char) (seg : List Char) (segs : List (List Char)) :
    joinSlash ((c :: seg) :: segs) = c :: joinSlash (seg :: segs) := by
  cases segs <;> simp [joinSlash]

theorem joinSlash_splitSlash (p : List Char) : joinSlash (splitSlash p) = p := by
  induction p with
  | nil => simp [splitSlash, joinSlash]
  | cons c cs ih =>
    unfold splitSlash
    by_cases hc : c = '/'
    · rw [if_pos hc]
      cases hs : splitSlash cs with
      | nil => exact absurd hs (splitSlash_ne_nil cs)
      | cons seg segs =>
        rw [hs] at ih
        simp [joinSlash, ih, hc]
    · rw [if_neg hc]
      cases hs : splitSlash cs with
      | nil => exact absurd hs (splitSlash_ne_nil cs)
      | cons seg segs =>
        rw [hs] at ih
        simp only [joinSlash_cons_cons, ih]

theorem splitSlash_append_slash (p q : List Char) :
    splitSlash (p ++ '/' :: q) = splitSlash p ++ splitSlash q := by
  induction p with
  | nil => simp [splitSlash]
  | cons c cs ih =>
    by_cases hc : c = '/'
    · simp [splitSlash, hc, ih]
    · cases hs : splitSlash cs with
      | nil => exact absurd hs (splitSlash_ne_nil cs)
      | cons seg segs =>
        simp [splitSlash, hc, ih, hs]

theorem splitSlash_no_slash (s : List Char) (h : '/' ∉ s) : splitSlash s = [s] := by
  induction s with
  | nil => rfl
  | cons c cs ih =>
    have hc : c ≠ '/' := fun e => h (by rw [e]; exact List.mem_cons_self _ _)
    have hcs : '/' ∉ cs := fun e => h (List.mem_cons_of_mem _ e)
    simp [splitSlash, hc, ih hcs]

theorem normalizeSegs_clean (b : Bool) (segs : List (List Char)) :
    ∀ res : List (List Char), (∀ s ∈ segs, cleanSeg s = true) →
      normalizeSegs b segs res = res.reverse ++ segs := by
  induction segs with
  | nil => intro res _; simp [normalizeSegs]
  | cons seg segs ih =>
    intro res h
    have hs := h seg (List.mem_cons_self _ _)
    simp only [cleanSeg, decide_eq_true_eq] at hs
    obtain ⟨h1, h2, h3, _⟩ := hs
    unfold normalizeSegs
    rw [if_neg (by rintro (e | e); exact h1 e; exact h2 e), if_neg h3,
      ih _ (fun s hs => h s (List.mem_cons_of_mem _ hs))]
    simp

theorem cleanDir_data_ne_nil (dir : String) (h : cleanDir dir = true) : dir.data ≠ [] := by
  intro e
  unfold cleanDir at h
  rw [e] at h
  simp [splitSlash, cleanSeg] at h

theorem cleanDir_not_absolute (dir : String) (h : cleanDir dir = true) :
    isAbsolute dir.data = false := by
  unfold cleanDir at h
  cases hd : dir.data with
  | nil => rfl
  | cons c cs =>
    rw [hd] at h
    by_cases hc : c = '/'
    · simp [splitSlash, hc, cleanSeg] at h
    · simp [isAbsolute, hc]

theorem pathJoin_clean (dir name : String) (hd : cleanDir dir = true)
    (hn : cleanSeg name.data = true) :
    pathJoin dir name = String.mk (dir.data ++ '/' :: name.data)
      ∧ cleanDir (String.mk (dir.data ++ '/' :: name.data)) = true := by
  have hdne := cleanDir_data_ne_nil dir hd
  have hn2 := hn
  simp only [cleanSeg, decide_eq_true_eq] at hn2
  obtain ⟨hnne, _, _, hslash⟩ := hn2
  have hsplit : splitSlash (dir.data ++ '/' :: name.data) = splitSlash dir.data ++ [name.data] := by
    rw [splitSlash_append_slash, splitSlash_no_slash _ hslash]
  have hall : ∀ s ∈ splitSlash (dir.data ++ '/' :: name.data), cleanSeg s = true := by
    intro s hs
    rw [hsplit] at hs
    rcases List.mem_append.mp hs with h | h
    · exact (List.all_eq_true.mp hd) s h
    · rw [List.mem_singleton.mp h]; exact hn
  refine ⟨?_, ?_⟩
  · have hda : dir ≠ "" := fun e => hdne (by rw [e])
    have hna : name ≠ "" := fun e => hnne (by rw [e])
    have hdata : (dir ++ "/" ++ name).data = dir.data ++ '/' :: name.data := by
      simp [String.data_append]
    have hp : dir.data ++ '/' :: name.data ≠ [] := by simp
    have hlast : (dir.data ++ '/' :: name.data).getLast? ≠ some '/' := by
      intro e
      have hl : (dir.data ++ '/' :: name.data).getLast? = name.data.getLast? := by
        rw [show dir.data ++ '/' :: name.data = (dir.data ++ ['/']) ++ name.data by simp]
        exact List.getLast?_append_of_ne_nil _ hnne
      rw [hl] at e
      exact hslash (List.mem_of_getLast?_eq_some e)
    have habs : isAbsolute (dir.data ++ '/' :: name.data) = false := by
      have := cleanDir_not_absolute dir hd
      cases hd2 : dir.data with
      | nil => exact absurd hd2 hdne
      | cons c cs => rw [hd2] at this; simpa [isAbsolute] using this
    have hbody : normalizeString (dir.data ++ '/' :: name.data) true
        = dir.data ++ '/' :: name.data := by
      unfold normalizeString
      rw [normalizeSegs_clean true _ [] hall]
      simp [joinSlash_splitSlash]
    unfold pathJoin
    rw [if_neg hda, if_neg hna]
    unfold pathNormalize
    have hlast2 : ('/' :: name.data).getLast? ≠ some '/' := by simpa using hlast
    simp only [hdata, if_neg hp, habs, Bool.not_false, hbody]
    simp [hlast2]
  · unfold cleanDir
    rw [List.all_eq_true]
    exact hall

theorem seg_unique (n1 : List Char) :
    ∀ (n2 t1 t2 : List Char), '/' ∉ n1 → '/' ∉ n2 →
      (t1 = [] ∨ ∃ t, t1 = '/' :: t) → (t2 = [] ∨ ∃ t, t2 = '/' :: t) →
      n1 ++ t1 = n2 ++ t2 → n1 = n2 := by
  induction n1 with
  | nil =>
    intro n2 t1 t2 _ h2 ht1 _ h
    cases n2 with
    | nil => rfl
    | cons d n2 =>
      exfalso
      rcases ht1 with e | ⟨t, e⟩
      · rw [e] at h; cases h
      · rw [e] at h
        simp only [List.nil_append, List.cons_append, List.cons.injEq] at h
        exact h2 (by rw [← h.1]; exact List.mem_cons_self _ _)
  | cons c n1 ih =>
    intro n2 t1 t2 h1 h2 ht1 ht2 h
    cases n2 with
    | nil =>
      exfalso
      rcases ht2 with e | ⟨t, e⟩
      · rw [e] at h; cases h
      · rw [e] at h
        simp only [List.nil_append, List.cons_append, List.cons.injEq] at h
        exact h1 (by rw [h.1]; exact List.mem_cons_self _ _)
    | cons d n2 =>
      simp only [List.cons_append, List.cons.injEq] at h
      rw [h.1, ih n2 t1 t2 (fun e => h1 (List.mem_cons_of_mem _ e))
        (fun e => h2 (List.mem_cons_of_mem _ e)) ht1 ht2 h.2]

theorem wellFormed_names_clean (entries : Listing) (h : wellFormed entries = true) :
    ∀ n ∈ topNames entries, cleanSeg n.data = true := by
  induction entries with
  | nil => intro n hn; cases hn
  | file name rest ih =>
    intro n hn
    simp only [wellFormed, Bool.and_eq_true] at h
    rcases List.mem_cons.mp hn with e | e
    · rw [e]; exact h.1.1
    · exact ih h.2 n e
  | dir name children rest _ ihr =>
    intro n hn
    simp only [wellFormed, Bool.and_eq_true] at h
    rcases List.mem_cons.mp hn with e | e
    · rw [e]; exact h.1.1.1
    · exact ihr h.2 n e
  | dangling name rest ih =>
    intro n hn
    simp only [wellFormed, Bool.and_eq_true] at h
    rcases List.mem_cons.mp hn with e | e
    · rw [e]; exact h.1.1
    · exact ih h.2 n e

theorem fileEntries_path_form (entries : Listing) :
    ∀ dir : String, cleanDir dir = true → wellFormed entries = true →
      ∀ e ∈ fileEntries dir entries, ∃ n ∈ topNames entries, ∃ tail,
        e.2.data = dir.data ++ '/' :: (n.data ++ tail) ∧ (tail = [] ∨ ∃ t, tail = '/' :: t) := by
  induction entries with
  | nil => intro dir _ _ e he; cases he
  | file name rest ih =>
    intro dir hd hw e he
    simp only [wellFormed, Bool.and_eq_true] at hw
    simp only [fileEntries, List.mem_cons] at he
    rcases he with h | h
    · refine ⟨name, List.mem_cons_self _ _, [], ?_, Or.inl rfl⟩
      rw [h, (pathJoin_clean dir name hd hw.1.1).1]
      simp
    · obtain ⟨n, hn, tail, h1, h2⟩ := ih dir hd hw.2 e h
      exact ⟨n, List.mem_cons_of_mem _ hn, tail, h1, h2⟩
  | dir name children rest ihc ihr =>
    intro dir hd hw e he
    simp only [wellFormed, Bool.and_eq_true] at hw
    simp only [fileEntries, List.mem_append] at he
    rcases he with h | h
    · have hj := pathJoin_clean dir name hd hw.1.1.1
      rw [hj.1] at h
      obtain ⟨n, _, tail, h1, _⟩ := ihc _ hj.2 hw.1.2 e h
      refine ⟨name, List.mem_cons_self _ _, '/' :: (n.data ++ tail), ?_, Or.inr ⟨_, rfl⟩⟩
      rw [h1]
      simp
    · obtain ⟨n, hn, tail, h1, h2⟩ := ihr dir hd hw.2 e h
      exact ⟨n, List.mem_cons_of_mem _ hn, tail, h1, h2⟩
  | dangling name rest ih =>
    intro dir hd hw e he
    simp only [wellFormed, Bool.and_eq_true] at hw
    simp only [fileEntries, List.mem_cons] at he
    rcases he with h | h
    · refine ⟨name, List.mem_cons_self _ _, [], ?_, Or.inl rfl⟩
      rw [h, (pathJoin_clean dir name hd hw.1.1).1]
      simp
    · obtain ⟨n, hn, tail, h1, h2⟩ := ih dir hd hw.2 e h
      exact ⟨n, List.mem_cons_of_mem _ hn, tail, h1, h2⟩

theorem same_top_name (dir : String) (entries : Listing) (hw : wellFormed entries = true)
    (name : String) (hname : cleanSeg name.data = true) (tail : List Char)
    (htail : tail = [] ∨ ∃ t, tail = '/' :: t)
    (n : String) (hn : n ∈ topNames entries) (tail2 : List Char)
    (htail2 : tail2 = [] ∨ ∃ t, tail2 = '/' :: t)
    (h : dir.data ++ '/' :: (name.data ++ tail) = dir.data ++ '/' :: (n.data ++ tail2)) :
    name ∈ topNames entries := by
  have hnc := wellFormed_names_clean entries hw n hn
  simp only [cleanSeg, decide_eq_true_eq] at hname hnc
  have h2 : name.data ++ tail = n.data ++ tail2 := by
    have := List.append_cancel_left h
    simpa using this
  have h3 := seg_unique name.data n.data tail tail2 hname.2.2.2 hnc.2.2.2 htail htail2 h2
  have h4 : name = n := String.ext h3
  rw [h4]; exact hn

theorem fileEntries_paths_nodup (entries : Listing) :
    ∀ dir : String, cleanDir dir = true → wellFormed entries = true →
      ((fileEntries dir entries).map (fun e => e.2)).Nodup := by
  induction entries with
  | nil => intro dir _ _; simp [fileEntries]
  | file name rest ih =>
    intro dir hd hw
    have hw0 := hw
    simp only [wellFormed, Bool.and_eq_true, decide_eq_true_eq] at hw
    simp only [fileEntries, List.map_cons, List.nodup_cons]
    refine ⟨?_, ih dir hd hw.2⟩
    intro hmem
    obtain ⟨e, he, heq⟩ := List.mem_map.mp hmem
    obtain ⟨n, hn, tail2, h1, h2⟩ := fileEntries_path_form rest dir hd hw.2 e he
    have hp : (pathJoin dir name).data = dir.data ++ '/' :: (name.data ++ []) := by
      rw [(pathJoin_clean dir name hd hw.1.1).1]; simp
    rw [← heq, h1] at hp
    exact hw.1.2 (same_top_name dir rest hw.2 name hw.1.1 [] (Or.inl rfl) n hn tail2 h2 hp.symm)
  | dir name children rest ihc ihr =>
    intro dir hd hw
    simp only [wellFormed, Bool.and_eq_true, decide_eq_true_eq] at hw
    have hj := pathJoin_clean dir name hd hw.1.1.1
    simp only [fileEntries, List.map_append]
    rw [List.nodup_append]
    refine ⟨ihc _ (by rw [hj.1]; exact hj.2) hw.1.2, ihr dir hd hw.2, ?_⟩
    intro p hp1 hp2
    obtain ⟨e1, he1, heq1⟩ := List.mem_map.mp hp1
    obtain ⟨e2, he2, heq2⟩ := List.mem_map.mp hp2
    rw [hj.1] at he1
    obtain ⟨m, _, tail1, h1, _⟩ := fileEntries_path_form children _ hj.2 hw.1.2 e1 he1
    obtain ⟨n, hn, tail2, h2, ht2⟩ := fileEntries_path_form rest dir hd hw.2 e2 he2
    have hp : dir.data ++ '/' :: (name.data ++ '/' :: (m.data ++ tail1))
        = dir.data ++ '/' :: (n.data ++ tail2) := by
      rw [← h2, heq2, ← heq1, h1]; simp
    exact hw.1.1.2 (same_top_name dir rest hw.2 name hw.1.1.1 _ (Or.inr ⟨_, rfl⟩) n hn tail2 ht2 hp)
  | dangling name rest ih =>
    intro dir hd hw
    simp only [wellFormed, Bool.and_eq_true, decide_eq_true_eq] at hw
    simp only [fileEntries, List.map_cons, List.nodup_cons]
    refine ⟨?_, ih dir hd hw.2⟩
    intro hmem
    obtain ⟨e, he, heq⟩ := List.mem_map.mp hmem
    obtain ⟨n, hn, tail2, h1, h2⟩ := fileEntries_path_form rest dir hd hw.2 e he
    have hp : (pathJoin dir name).data = dir.data ++ '/' :: (name.data ++ []) := by
      rw [(pathJoin_clean dir name hd hw.1.1).1]; simp
    rw [← heq, h1] at hp
    exact hw.1.2 (same_top_name dir rest hw.2 name hw.1.1 [] (Or.inl rfl) n hn tail2 h2 hp.symm)

theorem yamlPaths_nodup (dir : String) (entries : Listing) (hd : cleanDir dir = true)
    (hw : wellFormed entries = true) : (yamlPaths dir entries).Nodup := by
  unfold yamlPaths
  exact (fileEntries_paths_nodup entries dir hd hw).sublist
    ((List.filter_sublist _).map _)

/-! ## Lemmas: the main loop of validate-asyncapi.js -/

theorem foldl_validateOne_calls (env : AsyncapiEnv) (files : List String) :
    ∀ st : AsyncapiState,
      (files.foldl (validateOne env) st).calls
        = st.calls ++ files.map (validateCommand env.cwd) := by
  induction files with
  | nil => intro st; simp
  | cons f fs ih =>
    intro st
    rw [List.foldl_cons, ih]
    by_cases h : env.execSync (validateCommand env.cwd f) = true <;> simp [validateOne, h]

theorem foldl_validateOne_hasErrors (env : AsyncapiEnv) (files : List String) :
    ∀ st : AsyncapiState,
      (files.foldl (validateOne env) st).hasErrors
        = (st.hasErrors || files.any (validatorFails env)) := by
  induction files with
  | nil => intro st; simp
  | cons f fs ih =>
    intro st
    rw [List.foldl_cons, ih]
    by_cases h : env.execSync (validateCommand env.cwd f) = true <;>
      simp [validateOne, validatorFails, h]

theorem foldl_validateOne_errLines (env : AsyncapiEnv) (files : List String) :
    ∀ st : AsyncapiState,
      (files.foldl (validateOne env) st).log.filter Line.isErr
        = st.log.filter Line.isErr
          ++ (files.filter (validatorFails env)).map (fun f => Line.err ("Error validating " ++ f)) := by
  induction files with
  | nil => intro st; simp
  | cons f fs ih =>
    intro st
    rw [List.foldl_cons, ih]
    by_cases h : env.execSync (validateCommand env.cwd f) = true <;>
      simp [validateOne, validatorFails, h, Line.isErr]

theorem validateFiles_exitCode (env : AsyncapiEnv) (files : List String) :
    (validateFiles env files).exitCode = if files.any (validatorFails env) then 1 else 0 := by
  unfold validateFiles
  by_cases h0 : files.length = 0
  · have : files = [] := List.length_eq_zero.mp h0
    subst this
    simp
  · rw [if_neg h0]
    simp only [foldl_validateOne_hasErrors, Bool.false_or]
    by_cases h : files.any (validatorFails env) = true
    · simp [h]
    · have h2 : files.any (validatorFails env) = false := by simpa using h
      rw [h2]; simp

/-! ## validate-asyncapi.js: the claims -/

/-- C1: when `findYamlFiles('asyncapi')` returns a non-empty list, the exit code
of validate-asyncapi.js is 1 exactly when `execSync` throws for at least one of
the found files, it is 0 otherwise, and no other exit code occurs. -/
theorem C1_asyncapi_exit_code (env : AsyncapiEnv) (files : List String)
    (hfound : findYamlFiles asyncapiDir (env.fsAt (asyncapiScanRoot env.cwd)) [] = some files)
    (_hne : files ≠ []) :
    ((validateAsyncapi env).exitCode = 1
        ↔ ∃ f ∈ files, env.execSync (validateCommand env.cwd f) = false)
    ∧ ((¬ ∃ f ∈ files, env.execSync (validateCommand env.cwd f) = false)
        → (validateAsyncapi env).exitCode = 0)
    ∧ ((validateAsyncapi env).exitCode = 0 ∨ (validateAsyncapi env).exitCode = 1) := by
  have hrun : validateAsyncapi env = validateFiles env files := by
    simp only [validateAsyncapi, hfound]
  rw [hrun, validateFiles_exitCode]
  by_cases h : files.any (validatorFails env) = true
  · have hex : ∃ f ∈ files, env.execSync (validateCommand env.cwd f) = false := by
      simpa [validatorFails] using h
    simp [h, hex]
  · have hex : ¬ ∃ f ∈ files, env.execSync (validateCommand env.cwd f) = false := by
      simpa [validatorFails] using h
    have h2 : files.any (validatorFails env) = false := by simpa using h
    simp [h2, hex]

/-- C1 at the sample run: two files are found, the validator fails on one, and
the exit code is 1. -/
theorem C1_asyncapi_exit_code_witness :
    findYamlFiles asyncapiDir (sampleAsyncapiEnv.fsAt (asyncapiScanRoot sampleAsyncapiEnv.cwd)) []
        = some ["asyncapi/good.yaml", "asyncapi/sub/bad.yml"]
    ∧ (validateAsyncapi sampleAsyncapiEnv).exitCode = 1 :=
  ⟨by decide,
   (C1_asyncapi_exit_code sampleAsyncapiEnv ["asyncapi/good.yaml", "asyncapi/sub/bad.yml"]
      (by decide) (by decide)).1.2 ⟨"asyncapi/sub/bad.yml", by decide, by decide⟩⟩

/-- C3, refuted: with a regular file at `asyncapi` there is no `asyncapi`
directory, and the run ends with exit code 1 without the line
`No AsyncAPI files found`; with a directory `asyncapi` that holds `README.md`
and a dangling link `latest`, no non-directory entry has a name ending with
`.yaml` or `.yml`, and the run ends the same way. -/
theorem C3_asyncapi_none_found_counterexample :
    (sampleFileAtAsyncapiEnv.fsAt (asyncapiScanRoot sampleFileAtAsyncapiEnv.cwd)
        = PathState.notDir
      ∧ (validateAsyncapi sampleFileAtAsyncapiEnv).exitCode = 1
      ∧ Line.out "No AsyncAPI files found" ∉ (validateAsyncapi sampleFileAtAsyncapiEnv).log)
    ∧ (sampleDanglingAsyncapiEnv.fsAt (asyncapiScanRoot sampleDanglingAsyncapiEnv.cwd)
        = PathState.dir (.file "README.md" (.dangling "latest" .nil))
      ∧ (∀ e ∈ fileEntries asyncapiDir (.file "README.md" (.dangling "latest" .nil)),
          ¬ (endsWith e.1 ".yaml" = true ∨ endsWith e.1 ".yml" = true))
      ∧ (validateAsyncapi sampleDanglingAsyncapiEnv).exitCode = 1
      ∧ Line.out "No AsyncAPI files found" ∉ (validateAsyncapi sampleDanglingAsyncapiEnv).log) := by
  decide

/-- C3, amended: when nothing exists at `asyncapi`, or it is a directory in
which `statSync` succeeds on every entry at every depth and which holds at no
depth a non-directory entry whose name ends with `.yaml` or `.yml`,
validate-asyncapi.js logs `No AsyncAPI files found` and nothing else, exits with
code 0 and never calls the external validator. -/
theorem C3_asyncapi_none_found (env : AsyncapiEnv)
    (h : env.fsAt (asyncapiScanRoot env.cwd) = PathState.missing
      ∨ ∃ entries, env.fsAt (asyncapiScanRoot env.cwd) = PathState.dir entries
          ∧ statable entries = true
          ∧ ∀ e ∈ fileEntries asyncapiDir entries,
              ¬ (endsWith e.1 ".yaml" = true ∨ endsWith e.1 ".yml" = true)) :
    validateAsyncapi env
      = { log := [Line.out "No AsyncAPI files found"], calls := [], exitCode := 0 } := by
  rcases h with h | ⟨entries, h, hstat, hnone⟩
  · simp [validateAsyncapi, h, findYamlFiles, validateFiles]
  · have hy : yamlPaths asyncapiDir entries = [] := by
      unfold yamlPaths
      rw [List.map_eq_nil_iff, List.filter_eq_nil_iff]
      intro e he
      simpa [isYamlName] using hnone e he
    simp [validateAsyncapi, h, findYamlFiles, findYamlFilesIn_eq _ _ _ hstat, hy, validateFiles]

/-- C3 as amended, at a sample run whose `asyncapi` directory holds `README.md`
and a directory named `old.yaml`. -/
theorem C3_asyncapi_none_found_witness :
    validateAsyncapi sampleEmptyAsyncapiEnv
      = { log := [Line.out "No AsyncAPI files found"], calls := [], exitCode := 0 } :=
  C3_asyncapi_none_found sampleEmptyAsyncapiEnv
    (Or.inr ⟨.file "README.md" (.dir "old.yaml" .nil .nil), by decide, by decide, by decide⟩)

/-- C5: when the list of found files is not empty, `execSync` is called once for
each found file, in the order `findYamlFiles` returned them, whatever the
outcomes of the earlier calls, and the lines written to standard error are the
`Error validating <file>` lines of exactly the files that failed, in that
order. -/
theorem C5_asyncapi_every_file_validated (env : AsyncapiEnv) (files : List String)
    (hfound : findYamlFiles asyncapiDir (env.fsAt (asyncapiScanRoot env.cwd)) [] = some files)
    (hne : files ≠ []) :
    (validateAsyncapi env).calls = files.map (validateCommand env.cwd)
    ∧ (validateAsyncapi env).log.filter Line.isErr
        = (files.filter (fun f => !env.execSync (validateCommand env.cwd f))).map
            (fun f => Line.err ("Error validating " ++ f)) := by
  have hrun : validateAsyncapi env = validateFiles env files := by
    simp only [validateAsyncapi, hfound]
  have h0 : ¬ files.length = 0 := fun h => hne (List.length_eq_zero.mp h)
  have hc := foldl_validateOne_calls env files { log := [], calls := [], hasErrors := false }
  have hl := foldl_validateOne_errLines env files { log := [], calls := [], hasErrors := false }
  have hfun : (fun f => !env.execSync (validateCommand env.cwd f)) = validatorFails env := rfl
  rw [hrun, hfun]
  unfold validateFiles
  rw [if_neg h0]
  dsimp only
  constructor
  · split <;> simpa using hc
  · split <;> simpa using hl

/-- C5 at the sample run: both files are validated although the validator passes
on the first only. -/
theorem C5_asyncapi_every_file_validated_witness :
    (validateAsyncapi sampleAsyncapiEnv).calls
      = [validateCommand "/work" "asyncapi/good.yaml", validateCommand "/work" "asyncapi/sub/bad.yml"]
    ∧ (validateAsyncapi sampleAsyncapiEnv).log.filter Line.isErr
      = [Line.err "Error validating asyncapi/sub/bad.yml"] := by
  have h := C5_asyncapi_every_file_validated sampleAsyncapiEnv
    ["asyncapi/good.yaml", "asyncapi/sub/bad.yml"] (by decide) (by decide)
  refine ⟨h.1.trans (by decide), h.2.trans (by decide)⟩

/-- C8: the exit code of validate-asyncapi.js depends only on the set of found
files on which the validator fails: two lists of found files with the same
failing members give the same exit code, so removing or adding files that pass,
or reordering, changes nothing. -/
theorem C8_asyncapi_passing_files_irrelevant (env : AsyncapiEnv) (files files2 : List String)
    (hsame : ∀ f, (f ∈ files ∧ env.execSync (validateCommand env.cwd f) = false)
                ↔ (f ∈ files2 ∧ env.execSync (validateCommand env.cwd f) = false)) :
    (validateFiles env files).exitCode = (validateFiles env files2).exitCode := by
  rw [validateFiles_exitCode, validateFiles_exitCode]
  have hany : files.any (validatorFails env) = files2.any (validatorFails env) := by
    rw [Bool.eq_iff_iff]
    simp only [List.any_eq_true, validatorFails, Bool.not_eq_true']
    constructor
    · rintro ⟨f, hf, hx⟩; exact ⟨f, ((hsame f).mp ⟨hf, hx⟩).1, hx⟩
    · rintro ⟨f, hf, hx⟩; exact ⟨f, ((hsame f).mpr ⟨hf, hx⟩).1, hx⟩
  rw [hany]

/-- C8 at a sample: dropping the passing file and keeping the failing one leaves
the exit code at 1. -/
theorem C8_asyncapi_passing_files_irrelevant_witness :
    (validateFiles sampleAsyncapiEnv ["asyncapi/good.yaml", "asyncapi/sub/bad.yml"]).exitCode
      = (validateFiles sampleAsyncapiEnv ["asyncapi/sub/bad.yml"]).exitCode :=
  C8_asyncapi_passing_files_irrelevant sampleAsyncapiEnv
    ["asyncapi/good.yaml", "asyncapi/sub/bad.yml"] ["asyncapi/sub/bad.yml"]
    (fun _ => ⟨fun h => ⟨(List.mem_cons.mp h.1).elim
        (fun heq => absurd (heq ▸ h.2) (by decide)) id, h.2⟩,
      fun h => ⟨List.mem_cons_of_mem _ h.1, h.2⟩⟩)

/-- C9, refuted: in a directory that holds `a.yaml` and the dangling link
`dangling.yaml`, both are non-directory entries whose name ends with `.yaml`,
yet `findYamlFiles` returns no list at all: `statSync` throws on the link. -/
theorem C9_findYamlFiles_counterexample :
    ((fileEntries "asyncapi" sampleDanglingListing).filter
        (fun e => endsWith e.1 ".yaml" || endsWith e.1 ".yml")).map (fun e => e.2)
      = ["asyncapi/a.yaml", "asyncapi/dangling.yaml"]
    ∧ findYamlFiles "asyncapi" (PathState.dir sampleDanglingListing) [] = none
    ∧ findYamlFiles "asyncapi" (PathState.dir sampleDanglingListing) []
      ≠ some ([] ++ ["asyncapi/a.yaml", "asyncapi/dangling.yaml"]) := by
  decide

/-- C9, amended: `findYamlFiles(dir, acc)` returns `acc` unchanged when `dir`
does not exist; on a directory in which `statSync` succeeds on every entry at
every depth it returns `acc` followed by the paths of the non-directory entries
under `dir`, at any depth, whose name ends with `.yaml` or `.yml`, one per
entry, depth first in `readdir` order; an entry that is a directory adds what
its own entries add and no path of its own; and when `dir` is a relative
normalized path and the names within each directory are distinct single
segments other than `.` and `..`, no path occurs twice among those added. -/
theorem C9_findYamlFiles_result (dir : String) (acc : List String) :
    findYamlFiles dir PathState.missing acc = some acc
    ∧ (∀ entries : Listing, statable entries = true →
        findYamlFiles dir (PathState.dir entries) acc
          = some (acc ++ ((fileEntries dir entries).filter
              (fun e => endsWith e.1 ".yaml" || endsWith e.1 ".yml")).map (fun e => e.2)))
    ∧ (∀ (name : String) (children rest : Listing),
        findYamlFiles dir (PathState.dir (Listing.dir name children rest)) acc
          = (findYamlFiles (pathJoin dir name) (PathState.dir children) acc).bind
              (fun found => findYamlFiles dir (PathState.dir rest) found))
    ∧ (∀ entries : Listing, cleanDir dir = true → wellFormed entries = true →
        (((fileEntries dir entries).filter
          (fun e => endsWith e.1 ".yaml" || endsWith e.1 ".yml")).map (fun e => e.2)).Nodup) := by
  refine ⟨rfl, ?_, ?_, ?_⟩
  · intro entries hs
    simp only [findYamlFiles, findYamlFilesIn_eq entries dir acc hs]
    rfl
  · intro name children rest
    simp only [findYamlFiles, findYamlFilesIn]
    cases findYamlFilesIn (pathJoin dir name) children acc <;> rfl
  · intro entries hd hw
    exact yamlPaths_nodup dir entries hd hw

/-- C9 as amended, at the sample directory: both YAML files are found, in
depth-first order, and the two paths are distinct. -/
theorem C9_findYamlFiles_result_witness :
    findYamlFiles "asyncapi" (PathState.dir sampleListing) []
      = some ["asyncapi/good.yaml", "asyncapi/sub/bad.yml"]
    ∧ ["asyncapi/good.yaml", "asyncapi/sub/bad.yml"].Nodup := by
  have e : ((fileEntries "asyncapi" sampleListing).filter
        (fun e => endsWith e.1 ".yaml" || endsWith e.1 ".yml")).map (fun e => e.2)
      = ["asyncapi/good.yaml", "asyncapi/sub/bad.yml"] := by decide
  have h2 := (C9_findYamlFiles_result "asyncapi" []).2.1 sampleListing (by decide)
  have h4 := (C9_findYamlFiles_result "asyncapi" []).2.2.2 sampleListing (by decide) (by decide)
  rw [e] at h2 h4
  exact ⟨h2, h4⟩

/-! ## Lemmas: the three steps of validate-schemas.js -/

theorem loadedPairs_mem {Schema : Type} (env : SchemasEnv Schema) (files : List String)
    (f : String) (schema : Schema) :
    (f, schema) ∈ loadedPairs env files ↔ f ∈ files ∧ loadOf env f = some schema := by
  induction files with
  | nil => simp [loadedPairs]
  | cons g gs ih =>
    cases hg : loadOf env g with
    | none =>
      simp only [loadedPairs, hg, ih, List.mem_cons]
      constructor
      · rintro ⟨h1, h2⟩; exact ⟨Or.inr h1, h2⟩
      · rintro ⟨h1 | h1, h2⟩
        · subst h1; rw [hg] at h2; cases h2
        · exact ⟨h1, h2⟩
    | some t =>
      simp only [loadedPairs, hg, ih, List.mem_cons, Prod.mk.injEq]
      constructor
      · rintro (⟨h1, h2⟩ | ⟨h1, h2⟩)
        · subst h1; subst h2; exact ⟨Or.inl rfl, hg⟩
        · exact ⟨Or.inr h1, h2⟩
      · rintro ⟨h1 | h1, h2⟩
        · subst h1; rw [hg] at h2; cases h2; exact Or.inl ⟨rfl, rfl⟩
        · exact Or.inr ⟨h1, h2⟩

theorem loadedPairs_map_fst {Schema : Type} (env : SchemasEnv Schema) (files : List String)
    (hall : ∀ f ∈ files, loadOf env f ≠ none) :
    (loadedPairs env files).map (fun e => e.1) = files := by
  induction files with
  | nil => simp [loadedPairs]
  | cons g gs ih =>
    cases hg : loadOf env g with
    | none => exact absurd hg (hall g (List.mem_cons_self _ _))
    | some t =>
      simp only [loadedPairs, hg, List.map_cons]
      rw [ih (fun f hf => hall f (List.mem_cons_of_mem _ hf))]

theorem loadSchemas_ok {Schema : Type} (env : SchemasEnv Schema) (root : String)
    (files : List String) :
    ∀ (schemas : List (String × Schema)) (p : Progress),
      (∀ f ∈ files, loadOf env f ≠ none) →
      ∃ log2, loadSchemas env root files schemas p
        = .ok (schemas ++ loadedPairs env files,
              { log := p.log ++ log2, trace := p.trace ++ loadOps files }) := by
  induction files with
  | nil => intro schemas p _; exact ⟨[], by simp [loadSchemas, loadedPairs, loadOps]⟩
  | cons f fs ih =>
    intro schemas p hall
    have hf := hall f (List.mem_cons_self _ _)
    have hrest : ∀ g ∈ fs, loadOf env g ≠ none := fun g hg => hall g (List.mem_cons_of_mem _ hg)
    cases hr : env.readFileSync f with
    | error m => simp [loadOf, hr] at hf
    | ok content =>
      cases hp : env.jsonParse content with
      | error m => simp [loadOf, hr, hp] at hf
      | ok schema =>
        cases hi : env.getId schema with
        | error m => simp [loadOf, hr, hp, hi] at hf
        | ok b =>
          cases b with
          | false => simp [loadOf, hr, hp, hi] at hf
          | true =>
            obtain ⟨log2, h2⟩ := ih (schemas ++ [(f, schema)])
              { log := p.log ++ [Line.out ("  Loaded: " ++ pathRelative root f)],
                trace := p.trace ++ [SchemaOp.readFile f] ++ [SchemaOp.jsonParse f] } hrest
            refine ⟨Line.out ("  Loaded: " ++ pathRelative root f) :: log2, ?_⟩
            have hl : loadOf env f = some schema := by simp [loadOf, hr, hp, hi]
            simp only [loadSchemas, hr, hp, hi, h2, loadedPairs, hl, loadOps]
            simp

theorem exists_first_split {α : Type} (P : α → Bool) (l : List α) (h : ∃ x ∈ l, P x = true) :
    ∃ pre x post, l = pre ++ x :: post ∧ (∀ y ∈ pre, P y = false) ∧ P x = true := by
  induction l with
  | nil => obtain ⟨x, hx, _⟩ := h; cases hx
  | cons a as ih =>
    cases ha : P a with
    | true => exact ⟨[], a, as, rfl, fun y hy => (by cases hy), ha⟩
    | false =>
      have h2 : ∃ x ∈ as, P x = true := by
        obtain ⟨x, hx, hp⟩ := h
        rcases List.mem_cons.mp hx with e | e
        · subst e; rw [ha] at hp; cases hp
        · exact ⟨x, e, hp⟩
      obtain ⟨pre, x, post, hl, hpre, hx⟩ := ih h2
      refine ⟨a :: pre, x, post, by rw [hl]; rfl, ?_, hx⟩
      intro y hy
      rcases List.mem_cons.mp hy with e | e
      · subst e; exact ha
      · exact hpre y e

theorem loadSchemas_stops {Schema : Type} (env : SchemasEnv Schema) (root : String)
    (pre : List String) (f : String) (post : List String) :
    ∀ (schemas : List (String × Schema)) (p : Progress),
      (∀ g ∈ pre, loadOf env g ≠ none) → loadOf env f = none →
      ∃ q t, loadSchemas env root (pre ++ f :: post) schemas p = .error q
        ∧ q.trace = p.trace ++ loadOps pre ++ t
        ∧ (t = [SchemaOp.readFile f] ∨ t = [SchemaOp.readFile f, SchemaOp.jsonParse f]) := by
  induction pre with
  | nil =>
    intro schemas p _ hf
    cases hr : env.readFileSync f with
    | error m =>
      refine ⟨{ log := p.log ++ failureLines (pathRelative root f) "Failed to load" m,
                trace := p.trace ++ [SchemaOp.readFile f] }, [SchemaOp.readFile f], ?_, ?_, Or.inl rfl⟩
      · simp only [List.nil_append, loadSchemas, hr]
      · simp [loadOps]
    | ok content =>
      cases hp : env.jsonParse content with
      | error m =>
        refine ⟨{ log := p.log ++ failureLines (pathRelative root f) "Failed to load" m,
                  trace := p.trace ++ [SchemaOp.readFile f] ++ [SchemaOp.jsonParse f] },
          [SchemaOp.readFile f, SchemaOp.jsonParse f], ?_, ?_, Or.inr rfl⟩
        · simp only [List.nil_append, loadSchemas, hr, hp]
        · simp [loadOps]
      | ok schema =>
        cases hi : env.getId schema with
        | error m =>
          refine ⟨{ log := p.log ++ failureLines (pathRelative root f) "Failed to load" m,
                    trace := p.trace ++ [SchemaOp.readFile f] ++ [SchemaOp.jsonParse f] },
            [SchemaOp.readFile f, SchemaOp.jsonParse f], ?_, ?_, Or.inr rfl⟩
          · simp only [List.nil_append, loadSchemas, hr, hp, hi]
          · simp [loadOps]
        | ok b =>
          cases b with
          | false =>
            refine ⟨{ log := p.log ++ [Line.err ("✗ " ++ pathRelative root f ++
                        " - Missing required $id field")],
                      trace := p.trace ++ [SchemaOp.readFile f] ++ [SchemaOp.jsonParse f] },
              [SchemaOp.readFile f, SchemaOp.jsonParse f], ?_, ?_, Or.inr rfl⟩
            · simp only [List.nil_append, loadSchemas, hr, hp, hi]
            · simp [loadOps]
          | true => simp [loadOf, hr, hp, hi] at hf
  | cons g gs ih =>
    intro schemas p hall hf
    have hg := hall g (List.mem_cons_self _ _)
    have hrest : ∀ x ∈ gs, loadOf env x ≠ none := fun x hx => hall x (List.mem_cons_of_mem _ hx)
    cases hr : env.readFileSync g with
    | error m => simp [loadOf, hr] at hg
    | ok content =>
      cases hp : env.jsonParse content with
      | error m => simp [loadOf, hr, hp] at hg
      | ok schema =>
        cases hi : env.getId schema with
        | error m => simp [loadOf, hr, hp, hi] at hg
        | ok b =>
          cases b with
          | false => simp [loadOf, hr, hp, hi] at hg
          | true =>
            obtain ⟨q, t, hq, htr, ht⟩ := ih (schemas ++ [(g, schema)])
              { log := p.log ++ [Line.out ("  Loaded: " ++ pathRelative root g)],
                trace := p.trace ++ [SchemaOp.readFile g] ++ [SchemaOp.jsonParse g] } hrest hf
            refine ⟨q, t, by rw [List.cons_append]; simp only [loadSchemas, hr, hp, hi]; exact hq, ?_, ht⟩
            rw [htr]
            simp [loadOps]

theorem addSchemas_ok {Schema : Type} (env : SchemasEnv Schema) (root : String)
    (schemas : List (String × Schema)) :
    ∀ p : Progress, (∀ e ∈ schemas, addOk env e.2 = true) →
      ∃ log2, addSchemas env root schemas p
        = .ok { log := p.log ++ log2,
                trace := p.trace ++ schemas.map (fun e => SchemaOp.addSchema e.1) } := by
  induction schemas with
  | nil => intro p _; exact ⟨[], by simp [addSchemas]⟩
  | cons e es ih =>
    intro p hall
    obtain ⟨f, schema⟩ := e
    have he := hall (f, schema) (List.mem_cons_self _ _)
    cases ha : env.addSchema schema with
    | error m => simp [addOk, ha] at he
    | ok u =>
      obtain ⟨log2, h2⟩ := ih
        { log := p.log ++ [Line.out ("  Added: " ++ pathRelative root f)],
          trace := p.trace ++ [SchemaOp.addSchema f] }
        (fun e he => hall e (List.mem_cons_of_mem _ he))
      refine ⟨Line.out ("  Added: " ++ pathRelative root f) :: log2, ?_⟩
      simp only [addSchemas, ha, h2]
      simp

theorem addSchemas_stops {Schema : Type} (env : SchemasEnv Schema) (root : String)
    (pre : List (String × Schema)) (e : String × Schema) (post : List (String × Schema)) :
    ∀ p : Progress, (∀ x ∈ pre, addOk env x.2 = true) → addOk env e.2 = false →
      ∃ q, addSchemas env root (pre ++ e :: post) p = .error q
        ∧ q.trace = p.trace ++ (pre ++ [e]).map (fun x => SchemaOp.addSchema x.1) := by
  induction pre with
  | nil =>
    intro p _ he
    obtain ⟨f, schema⟩ := e
    cases ha : env.addSchema schema with
    | error m =>
      refine ⟨{ log := p.log ++ failureLines (pathRelative root f) "Failed to add to AJV" m,
                trace := p.trace ++ [SchemaOp.addSchema f] }, ?_, ?_⟩
      · simp only [List.nil_append, addSchemas, ha]
      · simp
    | ok u => simp [addOk, ha] at he
  | cons x xs ih =>
    intro p hall he
    obtain ⟨g, schema⟩ := x
    have hx := hall (g, schema) (List.mem_cons_self _ _)
    cases ha : env.addSchema schema with
    | error m => simp [addOk, ha] at hx
    | ok u =>
      obtain ⟨q, hq, htr⟩ := ih
        { log := p.log ++ [Line.out ("  Added: " ++ pathRelative root g)],
          trace := p.trace ++ [SchemaOp.addSchema g] }
        (fun y hy => hall y (List.mem_cons_of_mem _ hy)) he
      refine ⟨q, by rw [List.cons_append]; simp only [addSchemas, ha]; exact hq, ?_⟩
      rw [htr]
      simp

theorem foldl_checkOne {Schema : Type} (env : SchemasEnv Schema) (root : String)
    (schemas : List (String × Schema)) :
    ∀ st : CheckState,
      schemas.foldl (checkOne env root) st
        = { log := st.log ++ (schemas.map (checkLines env root)).flatten,
            trace := st.trace ++ checkOps env schemas,
            hasErrors := st.hasErrors || schemas.any (fun e => checkFails env e.2) } := by
  induction schemas with
  | nil => intro st; simp [checkOps]
  | cons e es ih =>
    intro st
    obtain ⟨f, schema⟩ := e
    rw [List.foldl_cons, ih]
    cases hv : env.validateSchema schema with
    | false => simp [checkOne, checkLines, checkOps, checkFails, hv]
    | true =>
      cases hc : env.compile schema with
      | error m => simp [checkOne, checkLines, checkOps, checkFails, compileOk, hv, hc]
      | ok u => simp [checkOne, checkLines, checkOps, checkFails, compileOk, hv, hc]

theorem validateSchemas_eq {Schema : Type} (env : SchemasEnv Schema) (files : List String)
    (hfound : getAllSchemaFiles (schemasDir env.dirname) (env.fsAt (schemasDir env.dirname)) []
      = some files) :
    validateSchemas env = validateSchemaFiles env (schemasDir env.dirname) files startProgress := by
  simp only [validateSchemas, hfound, startProgress]

theorem validateSchemaFiles_ok {Schema : Type} (env : SchemasEnv Schema) (root : String)
    (files : List String) (start : Progress)
    (hload : ∀ f ∈ files, loadOf env f ≠ none)
    (hadd : ∀ e ∈ loadedPairs env files, addOk env e.2 = true) :
    ∃ logA, validateSchemaFiles env root files start
      = { log := start.log ++ logA
            ++ ((loadedPairs env files).map (checkLines env root)).flatten
            ++ [verdictLine ((loadedPairs env files).any (fun e => checkFails env e.2))],
          trace := start.trace ++ loadOps files
            ++ (loadedPairs env files).map (fun e => SchemaOp.addSchema e.1)
            ++ checkOps env (loadedPairs env files),
          exitCode := if (loadedPairs env files).any (fun e => checkFails env e.2) then 1 else 0 } := by
  obtain ⟨log1, h1⟩ := loadSchemas_ok env root files []
    { log := start.log ++ [Line.out "Loading schemas..."], trace := start.trace } hload
  rw [List.nil_append] at h1
  obtain ⟨log2, h2⟩ := addSchemas_ok env root (loadedPairs env files)
    { log := start.log ++ [Line.out "Loading schemas..."] ++ log1
        ++ [Line.out (nl ++ "Adding schemas to AJV...")],
      trace := start.trace ++ loadOps files } hadd
  refine ⟨[Line.out "Loading schemas..."] ++ log1 ++ [Line.out (nl ++ "Adding schemas to AJV...")]
    ++ log2 ++ [Line.out (nl ++ "Validating schemas...")], ?_⟩
  unfold validateSchemaFiles
  simp only [h1, h2, foldl_checkOne, Bool.false_or]
  cases hany : (loadedPairs env files).any (fun e => checkFails env e.2) with
  | true => simp [verdictLine]
  | false => simp [verdictLine]

theorem validateSchemaFiles_load_stops {Schema : Type} (env : SchemasEnv Schema) (root : String)
    (pre : List String) (f : String) (post : List String) (start : Progress)
    (hpre : ∀ g ∈ pre, loadOf env g ≠ none) (hf : loadOf env f = none) :
    ∃ logq t, validateSchemaFiles env root (pre ++ f :: post) start
        = { log := logq, trace := start.trace ++ loadOps pre ++ t, exitCode := 1 }
      ∧ (t = [SchemaOp.readFile f] ∨ t = [SchemaOp.readFile f, SchemaOp.jsonParse f]) := by
  obtain ⟨q, t, hq, htr, ht⟩ := loadSchemas_stops env root pre f post []
    { log := start.log ++ [Line.out "Loading schemas..."], trace := start.trace } hpre hf
  refine ⟨q.log, t, ?_, ht⟩
  unfold validateSchemaFiles
  simp only [hq, htr]

theorem validateSchemaFiles_add_stops {Schema : Type} (env : SchemasEnv Schema) (root : String)
    (files : List String) (start : Progress)
    (pre : List (String × Schema)) (e : String × Schema) (post : List (String × Schema))
    (hload : ∀ f ∈ files, loadOf env f ≠ none)
    (hsplit : loadedPairs env files = pre ++ e :: post)
    (hpre : ∀ x ∈ pre, addOk env x.2 = true) (he : addOk env e.2 = false) :
    ∃ logq, validateSchemaFiles env root files start
        = { log := logq,
            trace := start.trace ++ loadOps files
              ++ (pre ++ [e]).map (fun x => SchemaOp.addSchema x.1),
            exitCode := 1 } := by
  obtain ⟨log1, h1⟩ := loadSchemas_ok env root files []
    { log := start.log ++ [Line.out "Loading schemas..."], trace := start.trace } hload
  rw [List.nil_append, hsplit] at h1
  obtain ⟨q, hq, htr⟩ := addSchemas_stops env root pre e post
    { log := start.log ++ [Line.out "Loading schemas..."] ++ log1
        ++ [Line.out (nl ++ "Adding schemas to AJV...")],
      trace := start.trace ++ loadOps files } hpre he
  refine ⟨q.log, ?_⟩
  unfold validateSchemaFiles
  simp only [h1, hq, htr]

/-- Every run is of one of three kinds: it stops at the first file that does not
load, or every file loads and it stops at the first schema Ajv does not accept,
or it reaches step 3. -/
theorem run_kinds {Schema : Type} (env : SchemasEnv Schema) (files : List String) :
    (∃ pre f post, files = pre ++ f :: post ∧ (∀ g ∈ pre, loadOf env g ≠ none)
        ∧ loadOf env f = none)
    ∨ ((∀ f ∈ files, loadOf env f ≠ none)
        ∧ ∃ pre e post, loadedPairs env files = pre ++ e :: post
            ∧ (∀ x ∈ pre, addOk env x.2 = true) ∧ addOk env e.2 = false)
    ∨ ((∀ f ∈ files, loadOf env f ≠ none) ∧ ∀ e ∈ loadedPairs env files, addOk env e.2 = true) := by
  by_cases hA : ∃ f ∈ files, (loadOf env f).isNone = true
  · obtain ⟨pre, f, post, hl, hpre, hf⟩ := exists_first_split _ files hA
    refine Or.inl ⟨pre, f, post, hl, ?_, by simpa using hf⟩
    intro g hg hn
    have := hpre g hg
    rw [hn] at this
    cases this
  · have hload : ∀ f ∈ files, loadOf env f ≠ none := by
      intro f hf hn
      exact hA ⟨f, hf, by rw [hn]; rfl⟩
    by_cases hB : ∃ e ∈ loadedPairs env files, (!addOk env e.2) = true
    · obtain ⟨pre, e, post, hl, hpre, he⟩ := exists_first_split _ _ hB
      refine Or.inr (Or.inl ⟨hload, pre, e, post, hl, ?_, by simpa using he⟩)
      intro x hx
      simpa using hpre x hx
    · refine Or.inr (Or.inr ⟨hload, ?_⟩)
      intro e he
      by_contra hn
      exact hB ⟨e, he, by simpa using hn⟩

theorem fileFails_iff {Schema : Type} (env : SchemasEnv Schema) (f : String) :
    fileFails env f = true
      ↔ loadOf env f = none
        ∨ ∃ schema, loadOf env f = some schema
            ∧ (addOk env schema = false ∨ checkFails env schema = true) := by
  unfold fileFails loadOf checkFails
  cases hr : env.readFileSync f with
  | error m => simp
  | ok content =>
    cases hp : env.jsonParse content with
    | error m => simp [hp]
    | ok schema =>
      cases hi : env.getId schema with
      | error m => simp [hp, hi]
      | ok b =>
        cases b with
        | false => simp [hp, hi]
        | true => simp [hp, hi, or_assoc]

theorem loadOf_some {Schema : Type} (env : SchemasEnv Schema) (f : String) (schema : Schema)
    (h : loadOf env f = some schema) :
    ∃ content, env.readFileSync f = .ok content ∧ env.jsonParse content = .ok schema
      ∧ env.getId schema = .ok true := by
  unfold loadOf at h
  cases hr : env.readFileSync f with
  | error m => simp [hr] at h
  | ok content =>
    cases hp : env.jsonParse content with
    | error m => simp [hr, hp] at h
    | ok s =>
      cases hi : env.getId s with
      | error m => simp [hr, hp, hi] at h
      | ok b =>
        cases b with
        | false => simp [hr, hp, hi] at h
        | true =>
          simp [hr, hp, hi] at h
          subst h
          exact ⟨content, rfl, hp, hi⟩

theorem validateSchemaFiles_exitCode {Schema : Type} (env : SchemasEnv Schema) (root : String)
    (files : List String) (start : Progress) :
    (validateSchemaFiles env root files start).exitCode
      = if files.any (fileFails env) then 1 else 0 := by
  rcases run_kinds env files with ⟨pre, f, post, hl, hpre, hf⟩ | ⟨hload, pre, e, post, hl, hpre, he⟩
    | ⟨hload, hadd⟩
  · obtain ⟨logq, t, hrun, _⟩ := validateSchemaFiles_load_stops env root pre f post start hpre hf
    have hany : files.any (fileFails env) = true := by
      rw [List.any_eq_true]
      exact ⟨f, by rw [hl]; simp, (fileFails_iff env f).mpr (Or.inl hf)⟩
    rw [hany, hl, hrun]
    rfl
  · obtain ⟨logq, hrun⟩ :=
      validateSchemaFiles_add_stops env root files start pre e post hload hl hpre he
    have hmem : (e.1, e.2) ∈ loadedPairs env files := by rw [hl]; simp
    have hm := (loadedPairs_mem env files e.1 e.2).mp hmem
    have hany : files.any (fileFails env) = true := by
      rw [List.any_eq_true]
      exact ⟨e.1, hm.1, (fileFails_iff env e.1).mpr (Or.inr ⟨e.2, hm.2, Or.inl he⟩)⟩
    rw [hany, hrun]
    rfl
  · obtain ⟨logA, hrun⟩ := validateSchemaFiles_ok env root files start hload hadd
    have hany : files.any (fileFails env)
        = (loadedPairs env files).any (fun e => checkFails env e.2) := by
      rw [Bool.eq_iff_iff, List.any_eq_true, List.any_eq_true]
      constructor
      · rintro ⟨f, hf, hff⟩
        rcases (fileFails_iff env f).mp hff with hn | ⟨schema, hs, ha | hc⟩
        · exact absurd hn (hload f hf)
        · have := hadd (f, schema) ((loadedPairs_mem env files f schema).mpr ⟨hf, hs⟩)
          rw [ha] at this
          cases this
        · exact ⟨(f, schema), (loadedPairs_mem env files f schema).mpr ⟨hf, hs⟩, hc⟩
      · rintro ⟨⟨f, schema⟩, he, hc⟩
        have hm := (loadedPairs_mem env files f schema).mp he
        exact ⟨f, hm.1, (fileFails_iff env f).mpr (Or.inr ⟨schema, hm.2, Or.inr hc⟩)⟩
    rw [hrun, hany]

theorem loadOps_not_check (files : List String) : ∀ op ∈ loadOps files, op.isCheck = false := by
  induction files with
  | nil => intro op h; cases h
  | cons f fs ih =>
    intro op h
    simp only [loadOps, List.mem_cons] at h
    rcases h with h | h | h
    · subst h; rfl
    · subst h; rfl
    · exact ih op h

theorem loadOps_mem (files : List String) (f : String) (hf : f ∈ files) :
    SchemaOp.readFile f ∈ loadOps files ∧ SchemaOp.jsonParse f ∈ loadOps files := by
  induction files with
  | nil => cases hf
  | cons g gs ih =>
    rcases List.mem_cons.mp hf with h | h
    · subst h; simp [loadOps]
    · have := ih h
      simp [loadOps, this.1, this.2]

theorem loadOps_filter_validate (files : List String) :
    (loadOps files).filter SchemaOp.isValidate = [] := by
  induction files with
  | nil => rfl
  | cons f fs ih => simp [loadOps, SchemaOp.isValidate, ih]

theorem checkOps_filter_validate {Schema : Type} (env : SchemasEnv Schema)
    (schemas : List (String × Schema)) :
    (checkOps env schemas).filter SchemaOp.isValidate
      = schemas.map (fun e => SchemaOp.validateSchema e.1) := by
  induction schemas with
  | nil => rfl
  | cons e es ih =>
    obtain ⟨f, schema⟩ := e
    cases hv : env.validateSchema schema <;> simp [checkOps, hv, SchemaOp.isValidate, ih]

theorem ops_before_check (xs ys : List SchemaOp) :
    ∀ (pre post : List SchemaOp) (op : SchemaOp),
      xs ++ ys = pre ++ op :: post → (∀ x ∈ xs, x.isCheck = false) → op.isCheck = true →
      ∃ r, pre = xs ++ r := by
  induction xs with
  | nil => intro pre post op _ _ _; exact ⟨pre, rfl⟩
  | cons x xs ih =>
    intro pre post op h hx hop
    cases pre with
    | nil =>
      simp only [List.cons_append, List.nil_append, List.cons.injEq] at h
      have := hx x (List.mem_cons_self _ _)
      rw [h.1, hop] at this
      cases this
    | cons y pre =>
      simp only [List.cons_append, List.cons.injEq] at h
      obtain ⟨r, hr⟩ := ih pre post op h.2 (fun z hz => hx z (List.mem_cons_of_mem _ hz)) hop
      exact ⟨r, by rw [h.1, hr]; rfl⟩

theorem loadSchemas_frame {Schema : Type} (env : SchemasEnv Schema) (cwd2 : String)
    (fs2 : String → PathState) (root : String) (files : List String) :
    ∀ (schemas : List (String × Schema)) (p : Progress),
      loadSchemas { env with cwd := cwd2, fsAt := fs2 } root files schemas p
        = loadSchemas env root files schemas p := by
  induction files with
  | nil => intro schemas p; rfl
  | cons f fs ih =>
    intro schemas p
    simp only [loadSchemas, ih]

theorem addSchemas_frame {Schema : Type} (env : SchemasEnv Schema) (cwd2 : String)
    (fs2 : String → PathState) (root : String) (schemas : List (String × Schema)) :
    ∀ p : Progress,
      addSchemas { env with cwd := cwd2, fsAt := fs2 } root schemas p
        = addSchemas env root schemas p := by
  induction schemas with
  | nil => intro p; rfl
  | cons e es ih =>
    intro p
    obtain ⟨f, schema⟩ := e
    simp only [addSchemas, ih]

theorem validateSchemaFiles_frame {Schema : Type} (env : SchemasEnv Schema) (cwd2 : String)
    (fs2 : String → PathState) (root : String) (files : List String) (start : Progress) :
    validateSchemaFiles { env with cwd := cwd2, fsAt := fs2 } root files start
      = validateSchemaFiles env root files start := by
  have hc : checkOne { env with cwd := cwd2, fsAt := fs2 } root = checkOne env root := rfl
  simp only [validateSchemaFiles, loadSchemas_frame, addSchemas_frame, hc]

/-! ## validate-schemas.js: the claims -/

/-- C2: when the schemas directory exists, the exit code of validate-schemas.js
is 1 exactly when, for at least one `.json` file found, reading or parsing
fails, or the parsed schema has no truthy `$id`, or `ajv.addSchema` throws, or
`ajv.validateSchema` returns false, or `ajv.compile` throws; otherwise it is
0. -/
theorem C2_schemas_exit_code {Schema : Type} (env : SchemasEnv Schema) (files : List String)
    (hfound : getAllSchemaFiles (schemasDir env.dirname) (env.fsAt (schemasDir env.dirname)) []
      = some files) :
    ((validateSchemas env).exitCode = 1 ↔ ∃ f ∈ files, fileFails env f = true)
    ∧ ((¬ ∃ f ∈ files, fileFails env f = true) → (validateSchemas env).exitCode = 0) := by
  rw [validateSchemas_eq env files hfound, validateSchemaFiles_exitCode]
  cases hany : files.any (fileFails env) with
  | true =>
    have hex : ∃ f ∈ files, fileFails env f = true := by simpa using hany
    simp [hex]
  | false =>
    have hex : ¬ ∃ f ∈ files, fileFails env f = true := by
      intro h
      have : files.any (fileFails env) = true := by simpa using h
      rw [hany] at this
      cases this
    simp [hex]

/-- C2 at the sample run: `a.json` fails `validateSchema`, the exit code is 1. -/
theorem C2_schemas_exit_code_witness :
    getAllSchemaFiles (schemasDir sampleSchemasEnv.dirname)
        (sampleSchemasEnv.fsAt (schemasDir sampleSchemasEnv.dirname)) []
      = some ["/repo/schemas/a.json", "/repo/schemas/sub/b.json"]
    ∧ (validateSchemas sampleSchemasEnv).exitCode = 1 :=
  ⟨by decide,
   (C2_schemas_exit_code sampleSchemasEnv ["/repo/schemas/a.json", "/repo/schemas/sub/b.json"]
      (by decide)).1.2 ⟨"/repo/schemas/a.json", by decide, by decide⟩⟩

/-- C4, refuted: with no schemas directory the run ends with exit code 1, not 0;
with a schemas directory that holds no `.json` file the run exits 0 and writes
the five lines of an ordinary successful run, none of which says that no file
was found. -/
theorem C4_schemas_none_found_counterexample :
    sampleMissingSchemasEnv.fsAt (schemasDir sampleMissingSchemasEnv.dirname) = PathState.missing
    ∧ (validateSchemas sampleMissingSchemasEnv).exitCode = 1
    ∧ (validateSchemas sampleMissingSchemasEnv).exitCode ≠ 0
    ∧ getAllSchemaFiles (schemasDir sampleNoJsonSchemasEnv.dirname)
        (sampleNoJsonSchemasEnv.fsAt (schemasDir sampleNoJsonSchemasEnv.dirname)) [] = some []
    ∧ (validateSchemas sampleNoJsonSchemasEnv).log
        = [Line.out ("Validating JSON schemas..." ++ nl),
           Line.out "Loading schemas...",
           Line.out (nl ++ "Adding schemas to AJV..."),
           Line.out (nl ++ "Validating schemas..."),
           Line.out (nl ++ "✓ All JSON schemas are valid!" ++ nl)] := by
  decide

/-- C4, amended: when the schemas directory exists and holds at no depth a
non-directory entry whose name ends with `.json`, validate-schemas.js calls no
oracle, writes its banner, the three step headings and
`All JSON schemas are valid!`, and exits with code 0. -/
theorem C4_schemas_no_files {Schema : Type} (env : SchemasEnv Schema) (entries : Listing)
    (hdir : env.fsAt (schemasDir env.dirname) = PathState.dir entries)
    (hnone : ∀ e ∈ fileEntries (schemasDir env.dirname) entries, endsWith e.1 ".json" = false) :
    validateSchemas env = { log := emptyRunLog, trace := [], exitCode := 0 } := by
  have hj : jsonPaths (schemasDir env.dirname) entries = [] := by
    unfold jsonPaths
    rw [List.map_eq_nil_iff, List.filter_eq_nil_iff]
    intro e he
    simpa using hnone e he
  have hfound : getAllSchemaFiles (schemasDir env.dirname) (env.fsAt (schemasDir env.dirname)) []
      = some [] := by
    simp [hdir, getAllSchemaFiles, getAllSchemaFilesIn_eq, hj]
  rw [validateSchemas_eq env [] hfound]
  simp [validateSchemaFiles, loadSchemas, addSchemas, startProgress, emptyRunLog]

/-- C4 as amended, at the sample run whose schemas directory holds `README.md`
only. -/
theorem C4_schemas_no_files_witness :
    validateSchemas sampleNoJsonSchemasEnv = { log := emptyRunLog, trace := [], exitCode := 0 } :=
  C4_schemas_no_files sampleNoJsonSchemasEnv (.file "README.md" .nil) (by decide) (by decide)

/-- C6, refuted: in the sample run where `JSON.parse` throws on every file, the
run ends after the first file: `a.json` is read, parsed and reported, while
`sub/b.json`, which fails as well, is never read and never reported. -/
theorem C6_schemas_continue_counterexample :
    getAllSchemaFiles (schemasDir sampleBrokenSchemasEnv.dirname)
        (sampleBrokenSchemasEnv.fsAt (schemasDir sampleBrokenSchemasEnv.dirname)) []
      = some ["/repo/schemas/a.json", "/repo/schemas/sub/b.json"]
    ∧ fileFails sampleBrokenSchemasEnv "/repo/schemas/sub/b.json" = true
    ∧ validateSchemas sampleBrokenSchemasEnv
      = { log := [Line.out ("Validating JSON schemas..." ++ nl),
                  Line.out "Loading schemas...",
                  Line.err "✗ a.json - Failed to load",
                  Line.err "  Error: Unexpected token"],
          trace := [SchemaOp.readFile "/repo/schemas/a.json",
                    SchemaOp.jsonParse "/repo/schemas/a.json"],
          exitCode := 1 } := by
  decide

/-- C6, amended: validate-schemas.js continues past a failing file in step 3
only. (a) When every found file loads (is read, parsed and has a truthy `$id`)
and is accepted by `ajv.addSchema`, `ajv.validateSchema` is called for every
file, in the order found, whatever the outcome for earlier files, and every file
that fails `validateSchema` or `compile` is reported on standard error.
(b) When some file does not load, the run ends at the first such file with exit
code 1: the oracle calls are those of the files before it, then the read (and
parse) of that file, and nothing else. (c) When every file loads and
`ajv.addSchema` throws for some schema, the run ends at the first such schema
with exit code 1: the files are all loaded, the schemas up to that one are
added, and nothing else is called. -/
theorem C6_schemas_failure_handling {Schema : Type} (env : SchemasEnv Schema)
    (files : List String)
    (hfound : getAllSchemaFiles (schemasDir env.dirname) (env.fsAt (schemasDir env.dirname)) []
      = some files) :
    ((∀ f ∈ files, ∃ schema, loadOf env f = some schema ∧ addOk env schema = true) →
        (validateSchemas env).trace.filter SchemaOp.isValidate
          = files.map SchemaOp.validateSchema
        ∧ ∀ f ∈ files, ∀ schema, loadOf env f = some schema →
            (env.validateSchema schema = false →
              Line.err ("✗ " ++ pathRelative (schemasDir env.dirname) f
                ++ " - Schema validation failed") ∈ (validateSchemas env).log)
            ∧ (env.validateSchema schema = true → ∀ message,
                env.compile schema = .error message →
              Line.err ("✗ " ++ pathRelative (schemasDir env.dirname) f
                ++ " - Compilation failed") ∈ (validateSchemas env).log))
    ∧ (∀ pre f post, files = pre ++ f :: post → (∀ g ∈ pre, loadOf env g ≠ none) →
        loadOf env f = none →
        (validateSchemas env).exitCode = 1
        ∧ ∃ t, (validateSchemas env).trace = loadOps pre ++ t
            ∧ (t = [SchemaOp.readFile f] ∨ t = [SchemaOp.readFile f, SchemaOp.jsonParse f]))
    ∧ ((∀ f ∈ files, loadOf env f ≠ none) →
        ∀ pre e post, loadedPairs env files = pre ++ e :: post →
        (∀ x ∈ pre, addOk env x.2 = true) → addOk env e.2 = false →
        (validateSchemas env).exitCode = 1
        ∧ (validateSchemas env).trace
            = loadOps files ++ (pre ++ [e]).map (fun x => SchemaOp.addSchema x.1)) := by
  rw [validateSchemas_eq env files hfound]
  refine ⟨?_, ?_, ?_⟩
  · intro hall
    have hload : ∀ f ∈ files, loadOf env f ≠ none := by
      intro f hf hn
      obtain ⟨schema, hs, _⟩ := hall f hf
      rw [hn] at hs
      cases hs
    have hadd : ∀ e ∈ loadedPairs env files, addOk env e.2 = true := by
      rintro ⟨f, schema⟩ he
      have hm := (loadedPairs_mem env files f schema).mp he
      obtain ⟨schema2, hs, ha⟩ := hall f hm.1
      rw [hm.2] at hs
      cases hs
      exact ha
    obtain ⟨logA, hrun⟩ :=
      validateSchemaFiles_ok env (schemasDir env.dirname) files startProgress hload hadd
    rw [hrun]
    constructor
    · simp only [startProgress, List.nil_append, List.filter_append, loadOps_filter_validate,
        checkOps_filter_validate]
      have hmid : ((loadedPairs env files).map (fun e => SchemaOp.addSchema e.1)).filter
          SchemaOp.isValidate = [] := by
        rw [List.filter_eq_nil_iff]
        intro op hop
        obtain ⟨e, _, he⟩ := List.mem_map.mp hop
        subst he
        simp [SchemaOp.isValidate]
      rw [hmid]
      have hmap := loadedPairs_map_fst env files hload
      simp only [List.nil_append]
      conv_rhs => rw [← hmap]
      rw [List.map_map]
      rfl
    · intro f hf schema hs
      have hmem : (f, schema) ∈ loadedPairs env files :=
        (loadedPairs_mem env files f schema).mpr ⟨hf, hs⟩
      have hin : ∀ line, line ∈ checkLines env (schemasDir env.dirname) (f, schema) →
          line ∈ startProgress.log ++ logA
            ++ ((loadedPairs env files).map (checkLines env (schemasDir env.dirname))).flatten
            ++ [verdictLine ((loadedPairs env files).any (fun e => checkFails env e.2))] := by
        intro line hline
        apply List.mem_append_left
        apply List.mem_append_right
        rw [List.mem_flatten]
        exact ⟨_, List.mem_map.mpr ⟨(f, schema), hmem, rfl⟩, hline⟩
      constructor
      · intro hv
        apply hin
        simp [checkLines, hv]
      · intro hv message hc
        apply hin
        have hline : failureLines (pathRelative (schemasDir env.dirname) f) "Compilation failed"
            message
          = [Line.err ("✗ " ++ pathRelative (schemasDir env.dirname) f ++ " - Compilation failed"),
             Line.err ("  Error: " ++ message)] := by
          unfold failureLines
          rw [String.append_assoc _ " - " "Compilation failed"]
          rfl
        simp [checkLines, hv, hc, hline]
  · intro pre f post hl hpre hf
    obtain ⟨logq, t, hrun, ht⟩ :=
      validateSchemaFiles_load_stops env (schemasDir env.dirname) pre f post startProgress hpre hf
    rw [hl, hrun]
    exact ⟨rfl, t, by simp [startProgress], ht⟩
  · intro hload pre e post hl hpre he
    obtain ⟨logq, hrun⟩ := validateSchemaFiles_add_stops env (schemasDir env.dirname) files
      startProgress pre e post hload hl hpre he
    rw [hrun]
    exact ⟨rfl, by simp [startProgress]⟩

/-- C6 as amended, at the sample run: `validateSchema` rejects `a.json`, and is
called for `sub/b.json` all the same. -/
theorem C6_schemas_failure_handling_witness :
    (validateSchemas sampleSchemasEnv).trace.filter SchemaOp.isValidate
      = [SchemaOp.validateSchema "/repo/schemas/a.json",
         SchemaOp.validateSchema "/repo/schemas/sub/b.json"] :=
  ((C6_schemas_failure_handling sampleSchemasEnv
      ["/repo/schemas/a.json", "/repo/schemas/sub/b.json"] (by decide)).1
    (by
      intro f hf
      simp only [List.mem_cons, List.mem_singleton, List.not_mem_nil, or_false] at hf
      rcases hf with rfl | rfl
      · exact ⟨"/repo/schemas/a.json", by decide, by decide⟩
      · exact ⟨"/repo/schemas/sub/b.json", by decide, by decide⟩)).1

/-- C7, refuted: for a script in `/repo/scripts` run from `/work`, the directory
validate-schemas.js scans is `/repo/schemas`, not `/work/schemas`: the files it
reads are those of `/repo/schemas`, and `bad.json` of `/work/schemas` is never
touched. -/
theorem C7_scan_root_counterexample :
    sampleSchemasEnv.cwd = "/work"
    ∧ sampleSchemasEnv.dirname = "/repo/scripts"
    ∧ pathResolve sampleSchemasEnv.cwd "schemas" = "/work/schemas"
    ∧ schemasDir sampleSchemasEnv.dirname = "/repo/schemas"
    ∧ schemasDir sampleSchemasEnv.dirname ≠ pathResolve sampleSchemasEnv.cwd "schemas"
    ∧ sampleSchemasEnv.fsAt "/work/schemas" = PathState.dir (.file "bad.json" .nil)
    ∧ (validateSchemas sampleSchemasEnv).trace
      = [SchemaOp.readFile "/repo/schemas/a.json", SchemaOp.jsonParse "/repo/schemas/a.json",
         SchemaOp.readFile "/repo/schemas/sub/b.json",
         SchemaOp.jsonParse "/repo/schemas/sub/b.json",
         SchemaOp.addSchema "/repo/schemas/a.json", SchemaOp.addSchema "/repo/schemas/sub/b.json",
         SchemaOp.validateSchema "/repo/schemas/a.json",
         SchemaOp.validateSchema "/repo/schemas/sub/b.json",
         SchemaOp.compile "/repo/schemas/sub/b.json"] := by
  decide

/-- C7, amended: validate-asyncapi.js scans `asyncapi` resolved against the
working directory: its run is the same wherever the script file lives and
whatever the rest of the file system holds. validate-schemas.js scans
`path.join(__dirname, '../schemas')`, the `schemas` directory beside the
directory of the script file: its run is the same whatever the working directory
is and whatever the rest of the file system holds. -/
theorem C7_scan_roots :
    (∀ (env : AsyncapiEnv) (dirname2 : String) (fs2 : String → PathState),
        fs2 (pathResolve env.cwd "asyncapi") = env.fsAt (pathResolve env.cwd "asyncapi") →
        validateAsyncapi { env with dirname := dirname2, fsAt := fs2 } = validateAsyncapi env)
    ∧ (∀ (Schema : Type) (env : SchemasEnv Schema) (cwd2 : String) (fs2 : String → PathState),
        fs2 (pathJoin env.dirname "../schemas") = env.fsAt (pathJoin env.dirname "../schemas") →
        validateSchemas { env with cwd := cwd2, fsAt := fs2 } = validateSchemas env) := by
  constructor
  · intro env dirname2 fs2 h
    have h2 : fs2 (asyncapiScanRoot env.cwd) = env.fsAt (asyncapiScanRoot env.cwd) := h
    simp only [validateAsyncapi, h2]
    rfl
  · intro Schema env cwd2 fs2 h
    have h2 : fs2 (schemasDir env.dirname) = env.fsAt (schemasDir env.dirname) := h
    simp only [validateSchemas, h2, validateSchemaFiles_frame]

/-- C7 as amended, at the sample runs: moving the script of validate-asyncapi.js
and emptying the rest of the file system, or moving the working directory of
validate-schemas.js to `/tmp` and emptying the rest of the file system, changes
nothing. -/
theorem C7_scan_roots_witness :
    validateAsyncapi { sampleAsyncapiEnv with
        dirname := "/elsewhere",
        fsAt := fun p => if p = "/work/asyncapi" then sampleAsyncapiEnv.fsAt p else .missing }
      = validateAsyncapi sampleAsyncapiEnv
    ∧ validateSchemas { sampleSchemasEnv with
        cwd := "/tmp",
        fsAt := fun p => if p = "/repo/schemas" then sampleSchemasEnv.fsAt p else .missing }
      = validateSchemas sampleSchemasEnv :=
  ⟨C7_scan_roots.1 sampleAsyncapiEnv "/elsewhere"
      (fun p => if p = "/work/asyncapi" then sampleAsyncapiEnv.fsAt p else .missing) (by decide),
   C7_scan_roots.2 String sampleSchemasEnv "/tmp"
      (fun p => if p = "/repo/schemas" then sampleSchemasEnv.fsAt p else .missing) (by decide)⟩

/-- C10: whenever a run of validate-schemas.js calls `ajv.validateSchema` or
`ajv.compile`, every `.json` file found has before that call been read and
parsed, its schema has a truthy `$id`, and `ajv.addSchema` has been called on it
and has returned normally. -/
theorem C10_schemas_phase_order {Schema : Type} (env : SchemasEnv Schema) (files : List String)
    (hfound : getAllSchemaFiles (schemasDir env.dirname) (env.fsAt (schemasDir env.dirname)) []
      = some files)
    (before after : List SchemaOp) (op : SchemaOp) (g : String)
    (hop : op = SchemaOp.validateSchema g ∨ op = SchemaOp.compile g)
    (htrace : (validateSchemas env).trace = before ++ op :: after) :
    ∀ f ∈ files, ∃ content schema,
      env.readFileSync f = .ok content ∧ env.jsonParse content = .ok schema
      ∧ env.getId schema = .ok true ∧ env.addSchema schema = .ok ()
      ∧ SchemaOp.readFile f ∈ before ∧ SchemaOp.jsonParse f ∈ before
      ∧ SchemaOp.addSchema f ∈ before := by
  have hcheck : op.isCheck = true := by
    rcases hop with h | h <;> rw [h] <;> rfl
  have hmemop : op ∈ (validateSchemas env).trace := by rw [htrace]; simp
  rw [validateSchemas_eq env files hfound] at htrace hmemop
  rcases run_kinds env files with ⟨pre, f, post, hl, hpre, hf⟩ | ⟨hload, pre, e, post, hl, hpre, he⟩
    | ⟨hload, hadd⟩
  · obtain ⟨logq, t, hrun, ht⟩ :=
      validateSchemaFiles_load_stops env (schemasDir env.dirname) pre f post startProgress hpre hf
    rw [hl, hrun] at hmemop
    simp only [startProgress, List.nil_append, List.mem_append] at hmemop
    exfalso
    rcases hmemop with h | h
    · have := loadOps_not_check pre op h
      rw [hcheck] at this
      cases this
    · rcases ht with ht | ht <;> rw [ht] at h <;> simp at h
      · rw [h] at hcheck; cases hcheck
      · rcases h with h | h <;> rw [h] at hcheck <;> cases hcheck
  · obtain ⟨logq, hrun⟩ := validateSchemaFiles_add_stops env (schemasDir env.dirname) files
      startProgress pre e post hload hl hpre he
    rw [hrun] at hmemop
    simp only [startProgress, List.nil_append, List.mem_append, List.mem_map] at hmemop
    exfalso
    rcases hmemop with h | ⟨x, _, h⟩
    · have := loadOps_not_check files op h
      rw [hcheck] at this
      cases this
    · rw [← h] at hcheck; cases hcheck
  · obtain ⟨logA, hrun⟩ :=
      validateSchemaFiles_ok env (schemasDir env.dirname) files startProgress hload hadd
    rw [hrun] at htrace
    simp only [startProgress, List.nil_append] at htrace
    have hnot : ∀ x ∈ loadOps files
        ++ (loadedPairs env files).map (fun e => SchemaOp.addSchema e.1), x.isCheck = false := by
      intro x hx
      rcases List.mem_append.mp hx with h | h
      · exact loadOps_not_check files x h
      · obtain ⟨e, _, he⟩ := List.mem_map.mp h
        rw [← he]; rfl
    obtain ⟨r, hr⟩ := ops_before_check _ _ before after op htrace hnot hcheck
    intro f hf
    cases hs : loadOf env f with
    | none => exact absurd hs (hload f hf)
    | some schema =>
      obtain ⟨content, h1, h2, h3⟩ := loadOf_some env f schema hs
      have hmem : (f, schema) ∈ loadedPairs env files :=
        (loadedPairs_mem env files f schema).mpr ⟨hf, hs⟩
      have ha : env.addSchema schema = .ok () := by
        have := hadd (f, schema) hmem
        unfold addOk at this
        cases hx : env.addSchema schema with
        | error m => simp [hx] at this
        | ok u => rfl
      have hops := loadOps_mem files f hf
      refine ⟨content, schema, h1, h2, h3, ha, ?_, ?_, ?_⟩
      · rw [hr]; exact List.mem_append_left _ (List.mem_append_left _ hops.1)
      · rw [hr]; exact List.mem_append_left _ (List.mem_append_left _ hops.2)
      · rw [hr]
        exact List.mem_append_left _ (List.mem_append_right _
          (List.mem_map.mpr ⟨(f, schema), hmem, rfl⟩))

/-- C10 at the sample run: before `compile` is called on `sub/b.json`, the file
`a.json` has been read, parsed and added. -/
theorem C10_schemas_phase_order_witness :
    ∃ content schema,
      sampleSchemasEnv.readFileSync "/repo/schemas/a.json" = .ok content
      ∧ sampleSchemasEnv.jsonParse content = .ok schema
      ∧ sampleSchemasEnv.getId schema = .ok true ∧ sampleSchemasEnv.addSchema schema = .ok ()
      ∧ SchemaOp.readFile "/repo/schemas/a.json"
          ∈ [SchemaOp.readFile "/repo/schemas/a.json", SchemaOp.jsonParse "/repo/schemas/a.json",
             SchemaOp.readFile "/repo/schemas/sub/b.json",
             SchemaOp.jsonParse "/repo/schemas/sub/b.json",
             SchemaOp.addSchema "/repo/schemas/a.json",
             SchemaOp.addSchema "/repo/schemas/sub/b.json",
             SchemaOp.validateSchema "/repo/schemas/a.json",
             SchemaOp.validateSchema "/repo/schemas/sub/b.json"]
      ∧ SchemaOp.jsonParse "/repo/schemas/a.json"
          ∈ [SchemaOp.readFile "/repo/schemas/a.json", SchemaOp.jsonParse "/repo/schemas/a.json",
             SchemaOp.readFile "/repo/schemas/sub/b.json",
             SchemaOp.jsonParse "/repo/schemas/sub/b.json",
             SchemaOp.addSchema "/repo/schemas/a.json",
             SchemaOp.addSchema "/repo/schemas/sub/b.json",
             SchemaOp.validateSchema "/repo/schemas/a.json",
             SchemaOp.validateSchema "/repo/schemas/sub/b.json"]
      ∧ SchemaOp.addSchema "/repo/schemas/a.json"
          ∈ [SchemaOp.readFile "/repo/schemas/a.json", SchemaOp.jsonParse "/repo/schemas/a.json",
             SchemaOp.readFile "/repo/schemas/sub/b.json",
             SchemaOp.jsonParse "/repo/schemas/sub/b.json",
             SchemaOp.addSchema "/repo/schemas/a.json",
             SchemaOp.addSchema "/repo/schemas/sub/b.json",
             SchemaOp.validateSchema "/repo/schemas/a.json",
             SchemaOp.validateSchema "/repo/schemas/sub/b.json"] :=
  C10_schemas_phase_order sampleSchemasEnv ["/repo/schemas/a.json", "/repo/schemas/sub/b.json"]
    (by decide)
    [SchemaOp.readFile "/repo/schemas/a.json", SchemaOp.jsonParse "/repo/schemas/a.json",
     SchemaOp.readFile "/repo/schemas/sub/b.json", SchemaOp.jsonParse "/repo/schemas/sub/b.json",
     SchemaOp.addSchema "/repo/schemas/a.json", SchemaOp.addSchema "/repo/schemas/sub/b.json",
     SchemaOp.validateSchema "/repo/schemas/a.json",
     SchemaOp.validateSchema "/repo/schemas/sub/b.json"]
    [] (SchemaOp.compile "/repo/schemas/sub/b.json") "/repo/schemas/sub/b.json"
    (Or.inr rfl) (by decide) "/repo/schemas/a.json" (by decide)

/-! ## The path model on sample paths -/

theorem path_model_samples :
    pathJoin "asyncapi" "a.yaml" = "asyncapi/a.yaml"
    ∧ pathJoin "/repo/scripts" "../schemas" = "/repo/schemas"
    ∧ pathResolve "/work" "asyncapi/a.yaml" = "/work/asyncapi/a.yaml"
    ∧ pathResolve "/" "asyncapi" = "/asyncapi"
    ∧ pathRelative "/repo/schemas" "/repo/schemas/a/b.json" = "a/b.json"
    ∧ endsWith "a.yaml" ".yaml" = true
    ∧ endsWith "a.YAML" ".yaml" = false := by
  decide

end Contracts
